import Mathlib

/-!
Verification development for the size-attribution engine of bundle-squeeze
(src/src/app.tsx).  The engine computes, over a flat list of module records,
four size metrics (self, total, unique, removed) using a memoized transitive
closure (`allTransitiveDependencies`, with a module-global cache
`transitiveDependenciesCache`) and an iterative depth-first reachability
generator (`reachableFrom`).  All state that is mutable in the source (the
global closure cache, the per-traversal visited set, the three memo caches
of class `Sizer`) is threaded explicitly.  Fallible operations (the source
throws on `findModule` misses) return `Option`.  Recursions that the source
runs unboundedly are indexed by fuel; fuel-stabilization theorems below show
the chosen fuel bounds suffice.
-/

namespace BS

/-- Module record, mirroring `type ModuleInfo` (app.tsx:257-264).
`chunk` is informational only and not needed by any metric. -/
structure ModuleInfo where
  id : String
  size : Nat
  renderedSize : Option Nat := none
  importedIds : List String := []
  dynamicallyImportedIds : List String := []
deriving DecidableEq, Repr

/-- `Sizer.size` (app.tsx:394-396): `renderedSize ?? size`. -/
def msize (m : ModuleInfo) : Nat :=
  m.renderedSize.getD m.size

/-- `findModule` (app.tsx:32-44).  The id→record map is built from
`modules.map (m) => [m.id, m]`; a JS `Map` keeps the last entry for a
duplicated key, hence the search over the reversed list.  A miss throws in
the source, modeled as `none`. -/
def findModule (modules : List ModuleInfo) (id : String) : Option ModuleInfo :=
  modules.reverse.find? (fun m => m.id == id)

/-- JS `Set.add`: insert at the end unless already present
(insertion-ordered set on strings). -/
def addId (l : List String) (x : String) : List String :=
  if l.contains x then l else l ++ [x]

/-- The global `transitiveDependenciesCache` (app.tsx:469), newest entry
first; `Map.set` overwrites, so lookups take the first (most recent) hit. -/
abbrev Cache := List (String × List String)

/-- Assoc-list lookup (JS `Map.get`). -/
def alookup {α : Type} (l : List (String × α)) (k : String) : Option α :=
  (l.find? (fun e => e.1 == k)).map (fun e => e.2)

/-- The `for (const dep of module.importedIds)` loop of
`allTransitiveDependencies` (app.tsx:487-497): resolve each dep (throwing
on a dangling id), add its id, then add every transitive dep of it as
computed by `rec` (the fuel-smaller recursive call, supplied by `attdAux`).
The visited set and the global cache thread through the iterations. -/
def attdGo (modules : List ModuleInfo)
    (rec : ModuleInfo → List String → Cache →
      Option (List String × Cache × List String)) :
    List String → List String → Cache → List String →
    Option (List String × Cache × List String)
  | [], visited, cc, acc => some (acc, cc, visited)
  | d :: rest, visited, cc, acc =>
    match findModule modules d with
    | none => none
    | some depM =>
      match rec depM visited cc with
      | none => none
      | some (tdeps, cc2, vis2) =>
        attdGo modules rec rest vis2 cc2 (tdeps.foldl addId (addId acc depM.id))

/-- `allTransitiveDependencies` (app.tsx:471-501), fuel-indexed.
Checks the global cache first, then the shared visited set (cycle
truncation returns the empty set), then runs the import loop, and finally
stores the result in the cache.  The visited set is mutated in place in
the source, so it is threaded through and returned. -/
def attdAux (modules : List ModuleInfo) :
    Nat → ModuleInfo → List String → Cache →
    Option (List String × Cache × List String)
  | 0, _, _, _ => none
  | fuel + 1, m, visited, cc =>
    match alookup cc m.id with
    | some deps => some (deps, cc, visited)
    | none =>
      if visited.contains m.id then some ([], cc, visited)
      else
        match attdGo modules (attdAux modules fuel) m.importedIds
            (addId visited m.id) cc [] with
        | none => none
        | some (deps, cc2, vis2) => some (deps, (m.id, deps) :: cc2, vis2)

/-- Fuel sufficient for `attdAux` on `modules` (each nested call either
returns at once or marks a previously unvisited module id as visited). -/
def attdFuel (modules : List ModuleInfo) : Nat :=
  modules.length + 2

/-- Top-level `allTransitiveDependencies(modules, module)` call with a fresh
visited set (the default argument in app.tsx:474), returning the dependency
id set and the updated global cache. -/
def allTransitiveDependencies (modules : List ModuleInfo) (m : ModuleInfo)
    (cc : Cache) : Option (List String × Cache) :=
  (attdAux modules (attdFuel modules) m [] cc).map (fun r => (r.1, r.2.1))

/-- One pop step's dependency pushes of `reachableFrom` (app.tsx:518-525):
for each imported id in order, skip it when already visited, resolve it
(throw on a dangling id), and push the extended path when the condition
allows it.  The stack has its top at the head, so a successive JS
`stack.push` is a successive cons. -/
def pushDeps (modules : List ModuleInfo) (cond : List ModuleInfo → Bool)
    (path : List ModuleInfo) (ds : List String)
    (stack : List (List ModuleInfo)) (visited : List String) :
    Option (List (List ModuleInfo)) :=
  match ds with
  | [] => some stack
  | d :: rest =>
    if visited.contains d then pushDeps modules cond path rest stack visited
    else
      match findModule modules d with
      | none => none
      | some depM =>
        let newPath := path ++ [depM]
        pushDeps modules cond path rest
          (if cond newPath then newPath :: stack else stack) visited

/-- The `while (stack.length > 0)` loop of `reachableFrom`
(app.tsx:513-526), fuel-indexed: pop a path, mark and yield its terminal
module, push the allowed unvisited dependency extensions, continue. -/
def reachAux (modules : List ModuleInfo) (cond : List ModuleInfo → Bool)
    (fuel : Nat) (stack : List (List ModuleInfo)) (visited : List String) :
    Option (List ModuleInfo) :=
  match fuel with
  | 0 => none
  | fuel' + 1 =>
    match stack with
    | [] => some []
    | path :: rest =>
      match path.getLast? with
      | none => none
      | some current =>
        let visited2 := addId visited current.id
        match pushDeps modules cond path current.importedIds rest visited2 with
        | none => none
        | some stack2 =>
          (reachAux modules cond fuel' stack2 visited2).map
            (fun out => current :: out)

/-- Largest static import list length over a record list. -/
def maxDeg (l : List ModuleInfo) : Nat :=
  l.foldr (fun m a => max m.importedIds.length a) 0

/-- Fuel sufficient for a full `reachableFrom` traversal: one more than the
potential `W ^ (n + 2)` of the initial stack, where `W` bounds the number
of pushes per pop and stack paths are duplicate-free of length at most
`n + 1` (see the stabilization theorems below). -/
def walkFuel (modules : List ModuleInfo) (entry : ModuleInfo) : Nat :=
  (maxDeg (entry :: modules) + 1) ^ (modules.length + 2) + 1

/-- `reachableFrom` (app.tsx:503-527) consumed to a list of yielded
modules.  The generator returns immediately when the condition rejects the
singleton entry path; otherwise it runs the stack loop. -/
def reachableFrom (modules : List ModuleInfo) (entry : ModuleInfo)
    (cond : List ModuleInfo → Bool := fun _ => true) :
    Option (List ModuleInfo) :=
  if cond [entry] then reachAux modules cond (walkFuel modules entry) [[entry]] []
  else some []

/-- The expansion loop of the `Sizer` constructor (app.tsx:381-392): each
explicitly ignored id is added, then every member of its transitive
dependency set (computed against the global closure cache, with a fresh
visited set per call) is added. -/
def expandGo (modules : List ModuleInfo) (igns : List String)
    (acc : List String) (cc : Cache) : Option (List String × Cache) :=
  match igns with
  | [] => some (acc, cc)
  | i :: rest =>
    let acc1 := addId acc i
    match findModule modules i with
    | none => none
    | some mi =>
      match allTransitiveDependencies modules mi cc with
      | none => none
      | some (deps, cc2) => expandGo modules rest (deps.foldl addId acc1) cc2

/-- `Sizer` constructor ignore-set expansion from an empty accumulator. -/
def expandIgnored (modules : List ModuleInfo) (igns : List String)
    (cc : Cache) : Option (List String × Cache) :=
  expandGo modules igns [] cc

/-- The summation loop of `Sizer.total` (app.tsx:410-415): skip the entry
equal to the module's own id, skip ignored ids, resolve and add the self
size of the rest (`findModule` is only reached for unignored ids). -/
def totalSumGo (modules : List ModuleInfo) (ign : List String) (mid : String)
    (ds : List String) (acc : Nat) : Option Nat :=
  match ds with
  | [] => some acc
  | d :: rest =>
    if d == mid then totalSumGo modules ign mid rest acc
    else if ign.contains d then totalSumGo modules ign mid rest acc
    else
      match findModule modules d with
      | none => none
      | some dm => totalSumGo modules ign mid rest (acc + msize dm)

/-- Per-`Sizer` memo caches (`totalSizeCache`, `uniqueSizeCache`,
`removedSizeCache`), assoc lists keyed by the source's string cache keys. -/
abbrev NCache := List (String × Nat)

/-- `Sizer.total` (app.tsx:398-418) with the memo cache and the global
closure cache threaded.  (The `/components/` debugger statement in the
source is a no-op.)  Returns the total together with both updated caches. -/
def totalOp (modules : List ModuleInfo) (ign : List String) (m : ModuleInfo)
    (cc : Cache) (tc : NCache) : Option (Nat × Cache × NCache) :=
  match alookup tc m.id with
  | some v => some (v, cc, tc)
  | none =>
    match allTransitiveDependencies modules m cc with
    | none => none
    | some (deps, cc2) =>
      let base : Nat := if ign.contains m.id then 0 else msize m
      match totalSumGo modules ign m.id deps base with
      | none => none
      | some t => some (t, cc2, (m.id, t) :: tc)

/-- The path predicate of `Sizer.unique`'s second walk (app.tsx:430-431):
allow every path that is not id-for-id equal to the given path. -/
def condUnique (path : List ModuleInfo) (p : List ModuleInfo) : Bool :=
  !(p.length == path.length && (p.zip path).all (fun ab => ab.1.id == ab.2.id))

/-- The path predicate of `Sizer.removed`'s second walk (app.tsx:454):
allow every path whose terminal module id differs from the removed id. -/
def condRemoved (m : ModuleInfo) (p : List ModuleInfo) : Bool :=
  match p.getLast? with
  | none => true
  | some x => !(x.id == m.id)

/-- The summation shared by `unique` and `removed` (app.tsx:435-440,
458-463): add the self size of every set member whose id is unignored. -/
def sumUn (ign : List String) (l : List ModuleInfo) : Nat :=
  match l with
  | [] => 0
  | x :: rest => (if ign.contains x.id then 0 else msize x) + sumUn ign rest

/-- `Sizer.unique`'s cache key (app.tsx:420). -/
def ukey (e : ModuleInfo) (path : List ModuleInfo) : String :=
  e.id ++ "\x00" ++ String.intercalate "\x00" (path.map (fun m => m.id))

/-- The uncached body of `Sizer.unique` (app.tsx:424-440): take the set of
modules reachable from the path's terminal, delete every module reachable
from the entry point along paths other than the given one, and sum the
unignored self sizes of what remains.  An empty path crashes the source
(`path[path.length-1]` is `undefined`), hence `none`. -/
def uniqueCompute (modules : List ModuleInfo) (ign : List String)
    (e : ModuleInfo) (path : List ModuleInfo) : Option Nat :=
  match path.getLast? with
  | none => none
  | some chk =>
    match reachableFrom modules chk (fun _ => true) with
    | none => none
    | some a =>
      match reachableFrom modules e (condUnique path) with
      | none => none
      | some b =>
        some (sumUn ign (a.dedup.filter (fun x => !(decide (x ∈ b)))))

/-- `Sizer.unique` (app.tsx:419-443) with its memo cache threaded. -/
def uniqueOp (modules : List ModuleInfo) (ign : List String) (e : ModuleInfo)
    (path : List ModuleInfo) (uc : NCache) : Option (Nat × NCache) :=
  match alookup uc (ukey e path) with
  | some v => some (v, uc)
  | none =>
    match uniqueCompute modules ign e path with
    | none => none
    | some t => some (t, (ukey e path, t) :: uc)

/-- `Sizer.removed`'s cache key (app.tsx:446). -/
def rkey (e : ModuleInfo) (m : ModuleInfo) : String :=
  e.id ++ "\x00" ++ m.id

/-- The uncached body of `Sizer.removed` (app.tsx:450-463): the set
reachable from the module, minus everything reachable from the entry point
without ever standing on the module, summed over unignored ids. -/
def removedCompute (modules : List ModuleInfo) (ign : List String)
    (e : ModuleInfo) (m : ModuleInfo) : Option Nat :=
  match reachableFrom modules m (fun _ => true) with
  | none => none
  | some a =>
    match reachableFrom modules e (condRemoved m) with
    | none => none
    | some b =>
      some (sumUn ign (a.dedup.filter (fun x => !(decide (x ∈ b)))))

/-- `Sizer.removed` (app.tsx:445-466) with its memo cache threaded. -/
def removedOp (modules : List ModuleInfo) (ign : List String)
    (e : ModuleInfo) (m : ModuleInfo) (rc : NCache) : Option (Nat × NCache) :=
  match alookup rc (rkey e m) with
  | some v => some (v, rc)
  | none =>
    match removedCompute modules ign e m with
    | none => none
    | some t => some (t, (rkey e m, t) :: rc)

/-- `new Sizer(modules, ignored)` on a cold global closure cache followed by
`sizer.total(m)`: the value the UI observes for the Total column right
after a fresh page load. -/
def freshTotal (modules : List ModuleInfo) (igns : List String)
    (m : ModuleInfo) : Option Nat :=
  match expandIgnored modules igns [] with
  | none => none
  | some (ex, cc) => (totalOp modules ex m cc []).map (fun r => r.1)

/-- Fresh-engine `unique` (cold caches). -/
def freshUnique (modules : List ModuleInfo) (igns : List String)
    (e : ModuleInfo) (path : List ModuleInfo) : Option Nat :=
  match expandIgnored modules igns [] with
  | none => none
  | some (ex, _) => (uniqueOp modules ex e path []).map (fun r => r.1)

/-- Fresh-engine `removed` (cold caches). -/
def freshRemoved (modules : List ModuleInfo) (igns : List String)
    (e : ModuleInfo) (m : ModuleInfo) : Option Nat :=
  match expandIgnored modules igns [] with
  | none => none
  | some (ex, _) => (removedOp modules ex e m []).map (fun r => r.1)

/-- One static-import edge between resolvable ids: the importer resolves to
a record listing the imported id, and the imported id resolves as well
(these are exactly the edges `allTransitiveDependencies` can traverse and
record). -/
def EdgeRel (modules : List ModuleInfo) (a b : String) : Prop :=
  ∃ ma, findModule modules a = some ma ∧ b ∈ ma.importedIds ∧
    ∃ mb, findModule modules b = some mb

/-- Static reachability in one or more import steps: the reference meaning
of "the full static transitive-dependency closure" of a module id. -/
def ReachesId (modules : List ModuleInfo) : String → String → Prop :=
  Relation.TransGen (EdgeRel modules)

/-- Every id stored in a closure-cache entry is genuinely reachable from
the entry's key (holds for every cache state the engine can produce). -/
def CacheSound (modules : List ModuleInfo) (cc : Cache) : Prop :=
  ∀ k v, alookup cc k = some v → ∀ d, d ∈ v → ReachesId modules k d

/-- A closure-cache entry is exactly the reachable set of its key. -/
def CacheExact (modules : List ModuleInfo) (cc : Cache) : Prop :=
  ∀ k v, alookup cc k = some v → ∀ d, (d ∈ v ↔ ReachesId modules k d)

/-- Closure-cache entries are duplicate-free (holds for every cache state
the engine can produce, since dependency sets are JS `Set`s). -/
def CacheNodup (cc : Cache) : Prop :=
  ∀ k v, alookup cc k = some v → v.Nodup

/-- The self size an id contributes to a sum (`0` for an unresolvable id;
the loops below only ever reach it on resolvable ids). -/
def szOf (modules : List ModuleInfo) (i : String) : Nat :=
  ((findModule modules i).map msize).getD 0

/-- Number of record ids not yet in the visited set: the measure that drops
whenever `allTransitiveDependencies` recurses into an unvisited module. -/
def freshCount (modules : List ModuleInfo) (vis : List String) : Nat :=
  ((modules.map (fun m => m.id)).filter (fun i => !(vis.contains i))).length

/-- Invariant of the `reachableFrom` stack: every pending path is nonempty,
repeats no module id, consists of the entry or records of the collection,
and is visited except possibly at its terminal. -/
def WalkInv (modules : List ModuleInfo) (entry : ModuleInfo)
    (stack : List (List ModuleInfo)) (visited : List String) : Prop :=
  ∀ p ∈ stack, p ≠ [] ∧ (p.map (fun m => m.id)).Nodup ∧
    (∀ x ∈ p.dropLast, x.id ∈ visited) ∧ (∀ x ∈ p, x ∈ entry :: modules)

/-- Potential of the `reachableFrom` stack: each pending path of length `k`
costs `W ^ (n + 3 - k)` where `W` exceeds every import-list length; one pop
replaces a path by at most `W - 1` strictly longer paths, so the potential
strictly drops at every loop iteration. -/
def stackPot (modules : List ModuleInfo) (entry : ModuleInfo)
    (stack : List (List ModuleInfo)) : Nat :=
  (stack.map (fun p =>
    (maxDeg (entry :: modules) + 1) ^ (modules.length + 3 - p.length))).sum

/-- A unique-size memo cache is consistent with fresh computation for every
canonical query (entry and path elements resolving to themselves, as all
modules handled by the UI do). -/
def UValid (modules : List ModuleInfo) (ign : List String) (uc : NCache) :
    Prop :=
  ∀ e path, findModule modules e.id = some e →
    (∀ x, x ∈ path → findModule modules x.id = some x) →
    (alookup uc (ukey e path)).isSome →
    alookup uc (ukey e path) = uniqueCompute modules ign e path

/-- A removed-size memo cache consistent with fresh computation for every
canonical query. -/
def RValid (modules : List ModuleInfo) (ign : List String) (rc : NCache) :
    Prop :=
  ∀ e m, findModule modules e.id = some e → findModule modules m.id = some m →
    (alookup rc (rkey e m)).isSome →
    alookup rc (rkey e m) = removedCompute modules ign e m

/-- Modules reachable from `e` without ever standing on a module whose id
is `mid` (used to relate the `removed` walk to the `unique` walk). -/
inductive AvoidTo (modules : List ModuleInfo) (e : ModuleInfo) (mid : String) :
    ModuleInfo → Prop where
  | base : e.id ≠ mid → AvoidTo modules e mid e
  | step {x y : ModuleInfo} {d : String} : AvoidTo modules e mid x →
      d ∈ x.importedIds → findModule modules d = some y → y.id ≠ mid →
      AvoidTo modules e mid y

/- Concrete module graphs used by the claims of the specification. -/

/-- Entry module of the spec §8 scenario graph. -/
def mE : ModuleInfo := { id := "E", size := 10, importedIds := ["A"] }

/-- Middle module of the spec §8 scenario graph. -/
def mA : ModuleInfo := { id := "A", size := 20, importedIds := ["B"] }

/-- Leaf module of the spec §8 scenario graph. -/
def mB : ModuleInfo := { id := "B", size := 5 }

/-- Second entry point of the spec §8 two-entry scenario. -/
def mF : ModuleInfo := { id := "F", size := 1, importedIds := ["B"] }

/-- Spec §8 scenario graph `{E: 10, imports [A]} {A: 20, imports [B]}
{B: 5, imports []}`. -/
def gEAB : List ModuleInfo := [mE, mA, mB]

/-- Spec §8 two-entry scenario graph (`gEAB` plus `{F: 1, imports [B]}`). -/
def gEABF : List ModuleInfo := [mE, mA, mB, mF]

/-- Cyclic graph `A → B`, `B → A`, `B → D`: the closure of `A` depends on
which module's closure is computed first. -/
def cycA : ModuleInfo := { id := "A", size := 1, importedIds := ["B"] }

/-- See `cycA`. -/
def cycB : ModuleInfo := { id := "B", size := 2, importedIds := ["A", "D"] }

/-- See `cycA`. -/
def cycD : ModuleInfo := { id := "D", size := 4 }

/-- The cyclic three-module graph. -/
def gCyc : List ModuleInfo := [cycA, cycB, cycD]

/-- `E` imports `C` then `B`; `B` imports `C`: `C` is pushed twice before
first being popped, so the traversal yields it twice. -/
def dupE : ModuleInfo := { id := "E", size := 1, importedIds := ["C", "B"] }

/-- See `dupE`. -/
def dupB : ModuleInfo := { id := "B", size := 1, importedIds := ["C"] }

/-- See `dupE`. -/
def dupC : ModuleInfo := { id := "C", size := 1 }

/-- The duplicate-yield graph. -/
def gDup : List ModuleInfo := [dupE, dupB, dupC]

/-- A module whose single static import (`"X"`) has no record. -/
def dangE : ModuleInfo := { id := "E", size := 10, importedIds := ["X"] }

/-- One-record collection with a dangling edge. -/
def gDang : List ModuleInfo := [dangE]

/-- A module importing itself. -/
def selfA : ModuleInfo := { id := "A", size := 1, importedIds := ["A"] }

/-- One-record collection with a self-import cycle. -/
def gSelf : List ModuleInfo := [selfA]

/-! ## Theorems -/

theorem mem_addId {l : List String} {x y : String} :
    y ∈ addId l x ↔ y ∈ l ∨ y = x := by
  unfold addId
  split
  · rename_i h
    rw [List.elem_iff] at h
    constructor
    · exact fun hy => Or.inl hy
    · rintro (hy | rfl)
      · exact hy
      · exact h
  · simp

theorem self_mem_addId {l : List String} {x : String} : x ∈ addId l x :=
  mem_addId.mpr (Or.inr rfl)

theorem addId_sub {l : List String} {x : String} : ∀ y ∈ l, y ∈ addId l x :=
  fun _ hy => mem_addId.mpr (Or.inl hy)

theorem mem_foldl_addId {l acc : List String} {y : String} :
    y ∈ l.foldl addId acc ↔ y ∈ acc ∨ y ∈ l := by
  induction l generalizing acc with
  | nil => simp
  | cons d rest ih =>
    simp only [List.foldl_cons, ih, mem_addId]
    constructor
    · rintro ((hy | rfl) | hy)
      · exact Or.inl hy
      · exact Or.inr (List.mem_cons_self _ _)
      · exact Or.inr (List.mem_cons_of_mem _ hy)
    · rintro (hy | hy)
      · exact Or.inl (Or.inl hy)
      · rcases List.mem_cons.mp hy with rfl | hy
        · exact Or.inl (Or.inr rfl)
        · exact Or.inr hy

theorem nodup_addId {l : List String} {x : String} (h : l.Nodup) :
    (addId l x).Nodup := by
  unfold addId
  split
  · exact h
  · rename_i hc
    have hx : x ∉ l := fun hm => hc (List.elem_iff.mpr hm)
    rw [List.nodup_append]
    exact ⟨h, List.nodup_singleton x,
      fun a ha hax => hx ((List.mem_singleton.mp hax) ▸ ha)⟩

theorem nodup_foldl_addId {l acc : List String} (h : acc.Nodup) :
    (l.foldl addId acc).Nodup := by
  induction l generalizing acc with
  | nil => exact h
  | cons d rest ih => exact ih (nodup_addId h)

theorem findModule_eq_some {modules : List ModuleInfo} {s : String}
    {m : ModuleInfo} (h : findModule modules s = some m) :
    m ∈ modules ∧ m.id = s := by
  unfold findModule at h
  have hmem := List.mem_of_find?_eq_some h
  have hpred := List.find?_some h
  rw [List.mem_reverse] at hmem
  exact ⟨hmem, by simpa using hpred⟩

theorem findModule_self {modules : List ModuleInfo} {s : String}
    {m : ModuleInfo} (h : findModule modules s = some m) :
    findModule modules m.id = some m := by
  rw [(findModule_eq_some h).2]
  exact h

theorem alookup_cons {α : Type} {k k2 : String} {v : α}
    {l : List (String × α)} :
    alookup ((k, v) :: l) k2 = if k == k2 then some v else alookup l k2 := by
  unfold alookup
  rw [List.find?_cons]
  split <;> simp_all

/-- Every id in `attdGo`'s result is in the accumulator, is one of the
listed import ids, or came out of a recursive call's result. -/
theorem attdGo_dangling {modules : List ModuleInfo}
    {rec : ModuleInfo → List String → Cache →
      Option (List String × Cache × List String)}
    {d0 : String} (hd0 : findModule modules d0 = none) :
    ∀ {ds : List String}, d0 ∈ ds → ∀ {v : List String} {c : Cache}
      {acc : List String}, attdGo modules rec ds v c acc = none := by
  intro ds
  induction ds with
  | nil => intro h; cases h
  | cons d rest ih =>
    intro hmem v c acc
    rcases List.mem_cons.mp hmem with rfl | hmem
    · simp [attdGo, hd0]
    · cases hfind : findModule modules d with
      | none => simp [attdGo, hfind]
      | some depM =>
        cases hrec : rec depM v c with
        | none => simp [attdGo, hfind, hrec]
        | some r =>
          obtain ⟨tdeps, cc2, vis2⟩ := r
          simp only [attdGo, hfind, hrec]
          exact ih hmem

/-- C1, amended: a dangling static import does abort instead of being
skipped: whenever a module's `importedIds` contains an id with no record,
computing `total` for that module over fresh memo coverage (no cached
closure for the module, no cached total) throws `findModule`'s not-found
error, modeled as `none`.  (`unique` and `removed` likewise abort whenever
their walks push the dangling id while it is unvisited, cf. `C1_cex`.) -/
theorem C1_dangling_total_raises (modules : List ModuleInfo)
    (ign : List String) (m : ModuleInfo) (dep : String) (cc : Cache)
    (tc : NCache) (hdep : dep ∈ m.importedIds)
    (hdang : findModule modules dep = none)
    (htc : alookup tc m.id = none) (hcc : alookup cc m.id = none) :
    totalOp modules ign m cc tc = none := by
  unfold totalOp
  rw [htc]
  have hattd : attdAux modules (attdFuel modules) m [] cc = none := by
    show attdAux modules (modules.length + 1 + 1) m [] cc = none
    unfold attdAux
    rw [hcc]
    have hvis : (List.contains [] m.id) = false := rfl
    rw [hvis]
    simp only [Bool.false_eq_true, if_false]
    rw [attdGo_dangling hdang hdep]
  unfold allTransitiveDependencies
  rw [hattd]
  rfl

/-- C1 witness: the amended statement applied to the dangling one-record
graph. -/
theorem C1_witness : totalOp gDang [] dangE [] [] = none :=
  C1_dangling_total_raises gDang [] dangE "X" [] [] (by decide) (by decide)
    (by decide) (by decide)

theorem pushDeps_mem {modules : List ModuleInfo}
    {cond : List ModuleInfo → Bool} {path : List ModuleInfo} :
    ∀ {ds : List String} {stack : List (List ModuleInfo)}
      {visited : List String} {stack2 : List (List ModuleInfo)},
    pushDeps modules cond path ds stack visited = some stack2 →
    ∀ q ∈ stack2, q ∈ stack ∨ ∃ d y, d ∈ ds ∧ visited.contains d = false ∧
      findModule modules d = some y ∧ cond (path ++ [y]) = true ∧
      q = path ++ [y] := by
  intro ds
  induction ds with
  | nil =>
    intro stack visited stack2 h q hq
    unfold pushDeps at h
    cases h
    exact Or.inl hq
  | cons d rest ih =>
    intro stack visited stack2 h q hq
    unfold pushDeps at h
    split at h
    · rcases ih h q hq with hq2 | ⟨d2, y, hm, hv, hf, hc, hq2⟩
      · exact Or.inl hq2
      · exact Or.inr ⟨d2, y, List.mem_cons_of_mem _ hm, hv, hf, hc, hq2⟩
    · rename_i hvc
      cases hfind : findModule modules d with
      | none => rw [hfind] at h; cases h
      | some depM =>
        rw [hfind] at h
        simp only at h
        rcases ih h q hq with hq2 | ⟨d2, y, hm, hv, hf, hc, hq2⟩
        · split at hq2
          · rcases List.mem_cons.mp hq2 with rfl | hq3
            · rename_i hcnd
              exact Or.inr ⟨d, depM, List.mem_cons_self _ _,
                Bool.eq_false_iff.mpr hvc, hfind, hcnd, rfl⟩
            · exact Or.inl hq3
          · exact Or.inl hq2
        · exact Or.inr ⟨d2, y, List.mem_cons_of_mem _ hm, hv, hf, hc, hq2⟩

theorem pushDeps_filter_len {modules : List ModuleInfo}
    {cond : List ModuleInfo → Bool} {path : List ModuleInfo}
    (P : List ModuleInfo → Bool) :
    ∀ {ds : List String} {stack : List (List ModuleInfo)}
      {visited : List String} {stack2 : List (List ModuleInfo)},
    pushDeps modules cond path ds stack visited = some stack2 →
    (∀ d y, d ∈ ds → visited.contains d = false →
      findModule modules d = some y → P (path ++ [y]) = false) →
    (stack2.filter P).length = (stack.filter P).length := by
  intro ds
  induction ds with
  | nil =>
    intro stack visited stack2 h _
    unfold pushDeps at h
    cases h
    rfl
  | cons d rest ih =>
    intro stack visited stack2 h hP
    unfold pushDeps at h
    split at h
    · exact ih h (fun d2 y hm => hP d2 y (List.mem_cons_of_mem _ hm))
    · rename_i hvc
      cases hfind : findModule modules d with
      | none => rw [hfind] at h; cases h
      | some depM =>
        rw [hfind] at h
        simp only at h
        have hPd : P (path ++ [depM]) = false :=
          hP d depM (List.mem_cons_self _ _) (Bool.eq_false_iff.mpr hvc) hfind
        by_cases hcnd : cond (path ++ [depM]) = true
        · rw [if_pos hcnd] at h
          have heq := ih h (fun d2 y hm => hP d2 y (List.mem_cons_of_mem _ hm))
          rw [heq]
          simp [List.filter_cons, hPd]
        · rw [if_neg hcnd] at h
          exact ih h (fun d2 y hm => hP d2 y (List.mem_cons_of_mem _ hm))

/-- C5, amended: the traversal's visited check runs when pushing, not when
popping, so once a module's id is in the visited set the module can be
yielded at most once per stack entry already pending for it — a module is
never pushed again after it has first been yielded, and all duplicates
stem from pushes that happened before the first pop. -/
theorem C5_no_push_after_first_yield (modules : List ModuleInfo)
    (cond : List ModuleInfo → Bool) :
    ∀ (fuel : Nat) (stack : List (List ModuleInfo)) (visited : List String)
      (out : List ModuleInfo) (m : ModuleInfo),
    reachAux modules cond fuel stack visited = some out → m.id ∈ visited →
    out.count m ≤
      (stack.filter (fun p => decide (p.getLast? = some m))).length := by
  intro fuel
  induction fuel with
  | zero => intro stack visited out m h; cases h
  | succ fuel ih =>
    intro stack visited out m h hm
    cases stack with
    | nil =>
      simp only [reachAux] at h
      cases h
      simp
    | cons path rest =>
      simp only [reachAux] at h
      cases hlast : path.getLast? with
      | none => simp only [hlast] at h; cases h
      | some current =>
        simp only [hlast] at h
        cases hpush : pushDeps modules cond path current.importedIds rest
            (addId visited current.id) with
        | none => simp only [hpush] at h; cases h
        | some stack2 =>
          simp only [hpush] at h
          cases hrec : reachAux modules cond fuel stack2
              (addId visited current.id) with
          | none => simp only [hrec, Option.map_none] at h; cases h
          | some out2 =>
            simp only [hrec, Option.map_some] at h
            cases h
            have hm2 : m.id ∈ addId visited current.id := addId_sub _ hm
            have hcount := ih stack2 (addId visited current.id) out2 m hrec hm2
            have hflt := pushDeps_filter_len
              (fun p => decide (p.getLast? = some m)) hpush ?_
            · by_cases hcm : current = m
              · subst hcm
                have hPpath : (decide (path.getLast? = some current)) = true := by
                  simp [hlast]
                rw [List.count_cons_self, List.filter_cons, hPpath]
                simp only [List.length_cons, if_true]
                omega
              · have hPpath : (decide (path.getLast? = some m)) = false := by
                  simp [hlast, hcm]
                rw [List.count_cons_of_ne (fun h => hcm h.symm),
                  List.filter_cons, hPpath]
                simp only [Bool.false_eq_true, if_false]
                omega
            · intro d y hd hvc hfind
              have hy := findModule_eq_some hfind
              have hnv : y.id ∉ addId visited current.id :=
                fun hmem => by
                  rw [hy.2] at hmem
                  exact absurd (List.elem_iff.mpr hmem)
                    (Bool.eq_false_iff.mp hvc)
              have hym : y ≠ m := fun heq => hnv (heq ▸ hm2)
              simp [List.getLast?_concat, hym]

/-- C5 witness: with `"E"` already visited, the traversal of the
duplicate-yield graph from `E` yields `E` at most once (one pending stack
entry ends at `E`). -/
theorem C5_witness :
    List.count dupE [dupE, dupB, dupC, dupC] ≤
      (([[dupE]] : List (List ModuleInfo)).filter
        (fun p => decide (p.getLast? = some dupE))).length :=
  C5_no_push_after_first_yield gDup (fun _ => true) 10 [[dupE]] ["E"]
    [dupE, dupB, dupC, dupC] dupE (by decide) (by decide)

/-- C6, amended: `unique` and `removed` are deterministic over a fixed
snapshot and ignore set — any memo-cache state consistent with fresh
computation (as all states produced by earlier queries in the same context
are, for canonical query arguments) yields exactly the fresh values.
`total` is excluded: it also depends on the global transitive-closure
cache, which earlier queries mutate (see `C6_cex`). -/
theorem C6_unique_removed_cache_independent (modules : List ModuleInfo)
    (ign : List String) (e : ModuleInfo) (path : List ModuleInfo)
    (m : ModuleInfo) (uc rc : NCache)
    (he : findModule modules e.id = some e)
    (hp : ∀ x, x ∈ path → findModule modules x.id = some x)
    (hm : findModule modules m.id = some m)
    (hu : UValid modules ign uc) (hr : RValid modules ign rc) :
    (uniqueOp modules ign e path uc).map (fun r => r.1) =
      uniqueCompute modules ign e path ∧
    (removedOp modules ign e m rc).map (fun r => r.1) =
      removedCompute modules ign e m := by
  constructor
  · unfold uniqueOp
    cases hcase : alookup uc (ukey e path) with
    | none =>
      cases h2 : uniqueCompute modules ign e path <;> simp [h2]
    | some v =>
      have hv := hu e path he hp (by rw [hcase]; rfl)
      rw [hcase] at hv
      simp [← hv]
  · unfold removedOp
    cases hcase : alookup rc (rkey e m) with
    | none =>
      cases h2 : removedCompute modules ign e m <;> simp [h2]
    | some v =>
      have hv := hr e m he hm (by rw [hcase]; rfl)
      rw [hcase] at hv
      simp [← hv]

/-- C6 witness: the amended statement applied to the §8 scenario graph
with empty (trivially valid) memo caches. -/
theorem C6_witness :
    (uniqueOp gEAB [] mE [mE, mA] []).map (fun r => r.1) =
      uniqueCompute gEAB [] mE [mE, mA] ∧
    (removedOp gEAB [] mE mB []).map (fun r => r.1) =
      removedCompute gEAB [] mE mB := by
  have hu : UValid gEAB [] [] := by
    intro e path he hp hs
    simp [alookup] at hs
  have hr : RValid gEAB [] [] := by
    intro e m he hm hs
    simp [alookup] at hs
  exact C6_unique_removed_cache_independent gEAB [] mE [mE, mA] mB [] []
    (by decide) (by decide) (by decide) hu hr

/-- Soundness of the import loop: everything it accumulates is reachable
from the loop's root id, assuming the recursive call and the cache are
sound. -/
theorem attdGoSound {modules : List ModuleInfo}
    {rec : ModuleInfo → List String → Cache →
      Option (List String × Cache × List String)}
    (hrec : ∀ m visited cc deps cc2 vis2, CacheSound modules cc →
      findModule modules m.id = some m →
      rec m visited cc = some (deps, cc2, vis2) →
      (∀ d ∈ deps, ReachesId modules m.id d) ∧ CacheSound modules cc2)
    {root : String} {rootM : ModuleInfo}
    (hroot : findModule modules root = some rootM) :
    ∀ (ds : List String), (∀ d ∈ ds, d ∈ rootM.importedIds) →
    ∀ (visited : List String) (cc : Cache) (acc : List String),
      CacheSound modules cc → (∀ d ∈ acc, ReachesId modules root d) →
    ∀ {res : List String} {cc2 : Cache} {vis2 : List String},
      attdGo modules rec ds visited cc acc = some (res, cc2, vis2) →
      (∀ d ∈ res, ReachesId modules root d) ∧ CacheSound modules cc2 := by
  intro ds
  induction ds with
  | nil =>
    intro _ visited cc acc hcs hacc res cc2 vis2 h
    cases h
    exact ⟨hacc, hcs⟩
  | cons d rest ih =>
    intro hds visited cc acc hcs hacc res cc2 vis2 h
    cases hfind : findModule modules d with
    | none => simp [attdGo, hfind] at h
    | some depM =>
      cases hr : rec depM visited cc with
      | none => simp [attdGo, hfind, hr] at h
      | some r =>
        obtain ⟨tdeps, ccr, visr⟩ := r
        simp only [attdGo, hfind, hr] at h
        have hdep := findModule_eq_some hfind
        have hsub := hrec depM visited cc tdeps ccr visr hcs
          (findModule_self hfind) hr
        have hedge : EdgeRel modules root depM.id := by
          refine ⟨rootM, hroot, ?_, depM, ?_⟩
          · rw [hdep.2]; exact hds d (List.mem_cons_self _ _)
          · rw [hdep.2]; exact hfind
        have hacc2 : ∀ x ∈ tdeps.foldl addId (addId acc depM.id),
            ReachesId modules root x := by
          intro x hx
          rcases mem_foldl_addId.mp hx with hx2 | hx2
          · rcases mem_addId.mp hx2 with hx3 | rfl
            · exact hacc x hx3
            · exact Relation.TransGen.single hedge
          · exact Relation.TransGen.head hedge (hsub.1 x hx2)
        exact ih (fun d2 hm => hds d2 (List.mem_cons_of_mem _ hm)) visr ccr _
          hsub.2 hacc2 h

/-- Soundness of the closure computation: every id it returns is reachable
from the argument module's id, and cache soundness is preserved. -/
theorem attdAuxSound {modules : List ModuleInfo} :
    ∀ (fuel : Nat) (m : ModuleInfo) (visited : List String) (cc : Cache)
      {deps : List String} {cc2 : Cache} {vis2 : List String},
      CacheSound modules cc → findModule modules m.id = some m →
      attdAux modules fuel m visited cc = some (deps, cc2, vis2) →
      (∀ d ∈ deps, ReachesId modules m.id d) ∧ CacheSound modules cc2 := by
  intro fuel
  induction fuel with
  | zero => intro m visited cc deps cc2 vis2 _ _ h; cases h
  | succ fuel ih =>
    intro m visited cc deps cc2 vis2 hcs hm h
    cases hcache : alookup cc m.id with
    | some v =>
      simp only [attdAux, hcache] at h
      cases h
      exact ⟨hcs m.id deps hcache, hcs⟩
    | none =>
      simp only [attdAux, hcache] at h
      by_cases hvis : visited.contains m.id = true
      · rw [if_pos hvis] at h
        cases h
        exact ⟨fun d hd => absurd hd (List.not_mem_nil d), hcs⟩
      · rw [if_neg hvis] at h
        cases hgo : attdGo modules (attdAux modules fuel) m.importedIds
            (addId visited m.id) cc [] with
        | none => rw [hgo] at h; cases h
        | some r =>
          obtain ⟨deps0, ccg, visg⟩ := r
          rw [hgo] at h
          simp only at h
          cases h
          have hres := attdGoSound (fun m2 v2 c2 d2 cc3 vi3 hc hm2 hr =>
              ih m2 v2 c2 hc hm2 hr) hm m.importedIds (fun d hd => hd)
            (addId visited m.id) cc [] hcs (fun d hd => absurd hd (List.not_mem_nil d))
            hgo
          refine ⟨hres.1, ?_⟩
          intro k v hk d hd
          rw [alookup_cons] at hk
          by_cases hkm : (m.id == k) = true
          · rw [if_pos hkm] at hk
            cases hk
            have : m.id = k := by simpa using hkm
            rw [← this]
            exact hres.1 d hd
          · rw [if_neg hkm] at hk
            exact hres.2 k v hk d hd

/-- C4, amended: `m.id ∉ closureOf(m)` holds exactly for modules that do
not lie on a static-import cycle through themselves; for a module on such
a cycle (including a self-import, see `C4_cex`) the computed closure can
contain the module's own id.  Stated over any sound cache state. -/
theorem C4_no_self_closure_without_cycle (modules : List ModuleInfo)
    (m : ModuleInfo) (cc : Cache) (deps : List String) (cc2 : Cache)
    (hm : findModule modules m.id = some m) (hcs : CacheSound modules cc)
    (hnc : ¬ ReachesId modules m.id m.id)
    (h : allTransitiveDependencies modules m cc = some (deps, cc2)) :
    m.id ∉ deps := by
  unfold allTransitiveDependencies at h
  cases hx : attdAux modules (attdFuel modules) m [] cc with
  | none => rw [hx] at h; cases h
  | some r =>
    obtain ⟨deps0, cc0, vis0⟩ := r
    rw [hx] at h
    simp only [Option.map_some'] at h
    cases h
    intro hmem
    exact hnc ((attdAuxSound (attdFuel modules) m [] cc hcs hm hx).1 m.id hmem)

/-- C4 witness: the leaf module `B` of the scenario graph is on no cycle,
and its id is absent from its computed closure (the empty set). -/
theorem C4_witness : "B" ∉ ([] : List String) := by
  have hcs : CacheSound gEAB [] := by
    intro k v hk
    simp [alookup] at hk
  have hnr : ¬ ReachesId gEAB "B" "B" := by
    intro h
    have noOut : ∀ x, ¬ EdgeRel gEAB "B" x := by
      rintro x ⟨ma, hma, hmem, mb, hmb⟩
      have hBe : findModule gEAB "B" = some mB := by decide
      rw [hma] at hBe
      have hmaB : ma = mB := Option.some.inj hBe
      subst hmaB
      simp [mB] at hmem
    rcases Relation.TransGen.head'_iff.mp h with ⟨c, e, _⟩
    exact noOut _ e
  exact C4_no_self_closure_without_cycle gEAB mB [] [] [("B", [])]
    (by decide) hcs hnr (by decide)

/-- The import loop produces a duplicate-free dependency set and preserves
duplicate-freeness of cache entries. -/
theorem attdGoNodup {modules : List ModuleInfo}
    {rec : ModuleInfo → List String → Cache →
      Option (List String × Cache × List String)}
    (hrec : ∀ m v c r, CacheNodup c → rec m v c = some r →
      CacheNodup r.2.1) :
    ∀ (ds : List String) (visited : List String) (cc : Cache)
      (acc : List String), CacheNodup cc → acc.Nodup →
    ∀ {res : List String} {cc2 : Cache} {vis2 : List String},
      attdGo modules rec ds visited cc acc = some (res, cc2, vis2) →
      res.Nodup ∧ CacheNodup cc2 := by
  intro ds
  induction ds with
  | nil =>
    intro visited cc acc hcn hacc res cc2 vis2 h
    cases h
    exact ⟨hacc, hcn⟩
  | cons d rest ih =>
    intro visited cc acc hcn hacc res cc2 vis2 h
    cases hfind : findModule modules d with
    | none => simp [attdGo, hfind] at h
    | some depM =>
      cases hr : rec depM visited cc with
      | none => simp [attdGo, hfind, hr] at h
      | some r =>
        obtain ⟨tdeps, ccr, visr⟩ := r
        simp only [attdGo, hfind, hr] at h
        exact ih visr ccr _ (hrec depM visited cc _ hcn hr)
          (nodup_foldl_addId (nodup_addId hacc)) h

/-- The closure computation produces a duplicate-free dependency set (given
duplicate-free cache entries, which the engine maintains) and preserves
cache duplicate-freeness. -/
theorem attdAuxNodup {modules : List ModuleInfo} :
    ∀ (fuel : Nat) (m : ModuleInfo) (visited : List String) (cc : Cache),
      CacheNodup cc →
    ∀ {res : List String} {cc2 : Cache} {vis2 : List String},
      attdAux modules fuel m visited cc = some (res, cc2, vis2) →
      res.Nodup ∧ CacheNodup cc2 := by
  intro fuel
  induction fuel with
  | zero => intro m visited cc _ res cc2 vis2 h; cases h
  | succ fuel ih =>
    intro m visited cc hcn res cc2 vis2 h
    cases hcache : alookup cc m.id with
    | some v =>
      simp only [attdAux, hcache] at h
      cases h
      exact ⟨hcn m.id res hcache, hcn⟩
    | none =>
      simp only [attdAux, hcache] at h
      by_cases hvis : visited.contains m.id = true
      · rw [if_pos hvis] at h
        cases h
        exact ⟨List.nodup_nil, hcn⟩
      · rw [if_neg hvis] at h
        cases hgo : attdGo modules (attdAux modules fuel) m.importedIds
            (addId visited m.id) cc [] with
        | none => rw [hgo] at h; cases h
        | some r =>
          obtain ⟨deps0, ccg, visg⟩ := r
          rw [hgo] at h
          simp only at h
          cases h
          have hres := attdGoNodup (fun m2 v2 c2 r2 hc hr =>
              (ih m2 v2 c2 hc hr).2) m.importedIds (addId visited m.id) cc []
            hcn List.nodup_nil hgo
          refine ⟨hres.1, ?_⟩
          intro k v hk
          rw [alookup_cons] at hk
          by_cases hkm : (m.id == k) = true
          · rw [if_pos hkm] at hk
            cases hk
            exact hres.1
          · rw [if_neg hkm] at hk
            exact hres.2 k v hk

/-- The total loop computes the accumulator plus the unignored self sizes
of the listed ids other than the module's own id. -/
theorem totalSumGo_spec {modules : List ModuleInfo} {ign : List String}
    {mid : String} :
    ∀ (ds : List String) (acc t : Nat),
    totalSumGo modules ign mid ds acc = some t →
    t = acc + ((ds.filter
      (fun d => !(d == mid) && !(ign.contains d))).map (szOf modules)).sum := by
  intro ds
  induction ds with
  | nil =>
    intro acc t h
    simp only [totalSumGo] at h
    cases h
    simp
  | cons d rest ih =>
    intro acc t h
    by_cases h1 : (d == mid) = true
    · rw [List.filter_cons]
      simp only [h1, Bool.not_true, Bool.false_and, Bool.false_eq_true, if_false]
      simp only [totalSumGo, h1, if_true] at h
      exact ih acc t h
    · have h1f : (d == mid) = false := Bool.eq_false_iff.mpr h1
      by_cases h2 : (ign.contains d) = true
      · simp only [totalSumGo, h1f, Bool.false_eq_true, if_false, h2, if_true] at h
        rw [List.filter_cons]
        simp only [h1f, h2, Bool.not_false, Bool.not_true, Bool.true_and,
          Bool.and_false, Bool.false_eq_true, if_false]
        exact ih acc t h
      · have h2f : (ign.contains d) = false := Bool.eq_false_iff.mpr h2
        cases hfind : findModule modules d with
        | none =>
          simp only [totalSumGo, h1f, Bool.false_eq_true, if_false, h2f, hfind] at h
          cases h
        | some dm =>
          simp only [totalSumGo, h1f, Bool.false_eq_true, if_false, h2f, hfind] at h
          rw [List.filter_cons]
          have hq : (!(d == mid) && !(ign.contains d)) = true := by
            rw [h1f, h2f]; rfl
          rw [hq]
          simp only [if_true, List.map_cons, List.sum_cons]
          have hsz : szOf modules d = msize dm := by
            simp [szOf, hfind]
          rw [hsz]
          have := ih (acc + msize dm) t h
          omega

/-- Bridge from a duplicate-free list sum to the Finset sum over its
members. -/
theorem sum_map_toFinset {l : List String} (f : String → Nat)
    (h : l.Nodup) : (l.map f).sum = ∑ i ∈ l.toFinset, f i := by
  induction l with
  | nil => simp
  | cons a rest ih =>
    rcases List.nodup_cons.mp h with ⟨ha, hr⟩
    rw [List.toFinset_cons, List.map_cons, List.sum_cons,
      Finset.sum_insert (by simpa using ha), ih hr]

/-- C10: the self size of a module enters its `total` exactly once, even
when the computed closure contains the module's own id (as on cycles): the
summation skips the closure entry equal to the module's id, so `total`
equals the sum of the unignored self sizes over the *set*
`{m.id} ∪ closure(m)`, each id counted once. -/
theorem C10_self_counted_once (modules : List ModuleInfo) (ign : List String)
    (m : ModuleInfo) (cc : Cache) (tc : NCache) (t : Nat) (cct : Cache)
    (tct : NCache) (deps : List String) (cc2 : Cache)
    (hm : findModule modules m.id = some m) (hcn : CacheNodup cc)
    (hattd : allTransitiveDependencies modules m cc = some (deps, cc2))
    (htc : alookup tc m.id = none)
    (htot : totalOp modules ign m cc tc = some (t, cct, tct)) :
    t = ∑ i ∈ (insert m.id deps.toFinset).filter (fun i => i ∉ ign),
      szOf modules i := by
  have hnodup : deps.Nodup := by
    unfold allTransitiveDependencies at hattd
    cases hx : attdAux modules (attdFuel modules) m [] cc with
    | none => rw [hx] at hattd; cases hattd
    | some r =>
      obtain ⟨deps0, cc0, vis0⟩ := r
      rw [hx] at hattd
      simp only [Option.map_some'] at hattd
      cases hattd
      exact (attdAuxNodup (attdFuel modules) m [] cc hcn hx).1
  simp only [totalOp, htc, hattd] at htot
  cases hsum : totalSumGo modules ign m.id deps
      (if ign.contains m.id then 0 else msize m) with
  | none => rw [hsum] at htot; cases htot
  | some t0 =>
    rw [hsum] at htot
    simp only at htot
    cases htot
    have hspec := totalSumGo_spec deps _ _ hsum
    have hflt : ((deps.filter
        (fun d => !(d == m.id) && !(ign.contains d))).map
          (szOf modules)).sum =
        ∑ i ∈ ((deps.toFinset.filter (fun i => i ∉ ign)).erase m.id),
          szOf modules i := by
      rw [sum_map_toFinset _ (List.Nodup.filter _ hnodup)]
      congr 1
      ext i
      simp only [List.mem_toFinset, List.mem_filter, Finset.mem_erase,
        Finset.mem_filter, Bool.and_eq_true, Bool.not_eq_true',
        beq_eq_false_iff_ne]
      constructor
      · rintro ⟨hi, hne, hni⟩
        refine ⟨hne, hi, fun hmem => ?_⟩
        simp at hni
        exact hni hmem
      · rintro ⟨hne, hi, hni⟩
        refine ⟨hi, hne, ?_⟩
        simpa using hni
    have hins : (insert m.id deps.toFinset).filter
        (fun i => i ∉ ign) =
        if m.id ∉ ign then
          insert m.id ((deps.toFinset.filter (fun i => i ∉ ign)).erase m.id)
        else (deps.toFinset.filter (fun i => i ∉ ign)).erase m.id := by
      by_cases hig : m.id ∈ ign
      · rw [if_neg (by simpa using hig)]
        ext i
        simp only [Finset.mem_filter, Finset.mem_insert, Finset.mem_erase]
        constructor
        · rintro ⟨hi | hi, hni⟩
          · exact absurd (hi ▸ hig) hni
          · exact ⟨fun heq => absurd (heq ▸ hig) hni, hi, hni⟩
        · rintro ⟨hne, hi, hni⟩
          exact ⟨Or.inr hi, hni⟩
      · rw [if_pos hig]
        ext i
        simp only [Finset.mem_filter, Finset.mem_insert, Finset.mem_erase]
        constructor
        · rintro ⟨hi | hi, hni⟩
          · exact Or.inl hi
          · by_cases hieq : i = m.id
            · exact Or.inl hieq
            · exact Or.inr ⟨hieq, hi, hni⟩
        · rintro (hi | ⟨hne, hi, hni⟩)
          · exact ⟨Or.inl hi, hi ▸ hig⟩
          · exact ⟨Or.inr hi, hni⟩
    rw [hins]
    by_cases hig : m.id ∈ ign
    · rw [if_neg (by simpa using hig)]
      have hbase : (if ign.contains m.id then 0 else msize m) = 0 := by
        rw [if_pos (by simpa using hig)]
      rw [hbase] at hspec
      rw [hspec, hflt]
      omega
    · rw [if_pos hig]
      rw [Finset.sum_insert (Finset.not_mem_erase _ _)]
      have hbase : (if ign.contains m.id then 0 else msize m) = msize m := by
        rw [if_neg (by simpa using hig)]
      rw [hbase] at hspec
      have hsz : szOf modules m.id = msize m := by
        simp [szOf, hm]
      rw [hsz, hspec, hflt]

/-- C10 witness: the self-importing module, whose closure contains its own
id, still contributes its size exactly once. -/
theorem C10_witness :
    (1 : Nat) = ∑ i ∈ (insert "A" (["A"] : List String).toFinset).filter
      (fun i => i ∉ ([] : List String)), szOf gSelf i :=
  C10_self_counted_once gSelf [] selfA [] [] 1 [("A", ["A"])] [("A", 1)]
    ["A"] [("A", ["A"])] (by decide)
    (fun k v hk => by simp [alookup] at hk) (by decide) (by decide) (by decide)

/-- C8: in the graph `{E: 10, imports [A]} {A: 20, imports [B]}
{B: 5, imports []}` with an empty ignore set, `total(E) = 35`,
`total(A) = 25`, `total(B) = 5`, `unique(E, [E,A]) = 25`,
`unique(E, [E,A,B]) = 5`, and `removed(E, B) = 5`. -/
theorem C8_concrete_metrics :
    freshTotal gEAB [] mE = some 35 ∧ freshTotal gEAB [] mA = some 25 ∧
    freshTotal gEAB [] mB = some 5 ∧
    freshUnique gEAB [] mE [mE, mA] = some 25 ∧
    freshUnique gEAB [] mE [mE, mA, mB] = some 5 ∧
    freshRemoved gEAB [] mE mB = some 5 := by
  decide

/-- C2, counterexample: in the two-entry graph with ignore set `{A}`, the
engine computes `total(F) = 1`, not `6`: `B` does land in the expanded
ignore closure. -/
theorem C2_cex :
    freshTotal gEABF ["A"] mF = some 1 ∧ freshTotal gEABF ["A"] mF ≠ some 6 := by
  decide

/-- C2, amended: ignoring `A` in the two-entry graph gives `total(E) = 10`
and `total(F) = 1`, because the constructor unconditionally expands the
ignore set with every transitive dependency of `A` — placing `B` in the
expanded closure regardless of `B` being independently reachable from
`F`. -/
theorem C2_ignore_closure_unconditional :
    (expandIgnored gEABF ["A"] []).map (fun r => r.1) = some ["A", "B"] ∧
    freshTotal gEABF ["A"] mE = some 10 ∧ freshTotal gEABF ["A"] mF = some 1 := by
  decide

/-- C6, counterexample: on the cyclic graph `A → B → {A, D}` the value of
`total(A)` depends on which query populated the global closure cache
first: queried fresh it is `7` (= 1 + 2 + 4), queried after `total(B)` it
is `3` (= 1 + 2), because `total(B)` cached the truncated closure
`{B ↦ [B]}`... (the cached entry for `A` is `["B"]`, missing `"D"`). -/
theorem C6_cex :
    (totalOp gCyc [] cycA [] []).map (fun r => r.1) = some 7 ∧
    (match totalOp gCyc [] cycB [] [] with
     | some (_, cc, tc) => (totalOp gCyc [] cycA cc tc).map (fun r => r.1)
     | none => none) = some 3 ∧
    (7 : Nat) ≠ 3 := by
  decide

/-- C5, counterexample: on the graph `E → [C, B]`, `B → [C]` the traversal
yields `C` twice: the visited check happens only when pushing
dependencies, and `C` is pushed along two paths before first being
popped. -/
theorem C5_cex :
    (reachableFrom gDup dupE).map (fun l => l.map (fun m => m.id)) =
      some ["E", "B", "C", "C"] := by
  decide

/-- C1, counterexample: a record whose `importedIds` holds the unresolved
id `"X"` makes `total`, `unique` and `removed` for the importing module
all abort with `findModule`'s not-found error (modeled as `none`) instead
of silently skipping the dangling edge. -/
theorem C1_cex :
    freshTotal gDang [] dangE = none ∧
    freshUnique gDang [] dangE [dangE] = none ∧
    freshRemoved gDang [] dangE dangE = none := by
  decide

/-- C4, counterexample: for the self-importing module `A`, the computed
transitive dependency set of `A` contains `A` itself. -/
theorem C4_cex :
    (allTransitiveDependencies gSelf selfA []).map (fun r => r.1) =
      some ["A"] ∧ "A" ∈ ["A"] := by
  decide

/-- C3, counterexample: on the cyclic graph `A → B → {A, D}`, if the global
closure cache was already warmed by a `closure(B)` query, constructing a
sizer with ignore set `{A}` expands it to `{A, B}` only — `"D"`, which is
in the true transitive closure of `A` (via `A → B → D`), is missing. -/
theorem C3_cex :
    (match allTransitiveDependencies gCyc cycB [] with
     | some (_, cc) => (expandIgnored gCyc ["A"] cc).map (fun r => r.1)
     | none => none) = some ["A", "B"] ∧
    ("D" : String) ∉ ["A", "B"] ∧
    ReachesId gCyc "A" "D" := by
  refine ⟨by decide, by decide, ?_⟩
  have h1 : EdgeRel gCyc "A" "B" := ⟨cycA, by decide, by decide, cycB, by decide⟩
  have h2 : EdgeRel gCyc "B" "D" := ⟨cycB, by decide, by decide, cycD, by decide⟩
  exact Relation.TransGen.head h1 (Relation.TransGen.single h2)

/-- The import loop only grows the visited set. -/
theorem attdGo_vis {modules : List ModuleInfo}
    {rec : ModuleInfo → List String → Cache →
      Option (List String × Cache × List String)}
    (hrec : ∀ m v c r, rec m v c = some r → ∀ x ∈ v, x ∈ r.2.2) :
    ∀ (ds : List String) (v : List String) (cc : Cache) (acc : List String)
      {r : List String × Cache × List String},
      attdGo modules rec ds v cc acc = some r → ∀ x ∈ v, x ∈ r.2.2 := by
  intro ds
  induction ds with
  | nil =>
    intro v cc acc r h x hx
    cases h
    exact hx
  | cons d rest ih =>
    intro v cc acc r h x hx
    cases hfind : findModule modules d with
    | none => simp [attdGo, hfind] at h
    | some depM =>
      cases hr : rec depM v cc with
      | none => simp [attdGo, hfind, hr] at h
      | some r2 =>
        obtain ⟨tdeps, ccr, visr⟩ := r2
        simp only [attdGo, hfind, hr] at h
        exact ih visr ccr _ h x (hrec depM v cc _ hr x hx)

/-- The closure computation only grows the visited set. -/
theorem attdAux_vis {modules : List ModuleInfo} :
    ∀ (fuel : Nat) (m : ModuleInfo) (v : List String) (cc : Cache)
      {r : List String × Cache × List String},
      attdAux modules fuel m v cc = some r → ∀ x ∈ v, x ∈ r.2.2 := by
  intro fuel
  induction fuel with
  | zero => intro m v cc r h; cases h
  | succ fuel ih =>
    intro m v cc r h x hx
    cases hcache : alookup cc m.id with
    | some dv =>
      simp only [attdAux, hcache] at h
      cases h
      exact hx
    | none =>
      simp only [attdAux, hcache] at h
      by_cases hvis : v.contains m.id = true
      · rw [if_pos hvis] at h
        cases h
        exact hx
      · rw [if_neg hvis] at h
        cases hgo : attdGo modules (attdAux modules fuel) m.importedIds
            (addId v m.id) cc [] with
        | none => rw [hgo] at h; cases h
        | some r2 =>
          obtain ⟨deps0, ccg, visg⟩ := r2
          rw [hgo] at h
          simp only at h
          cases h
          exact attdGo_vis (fun m2 v2 c2 r2 h2 => ih m2 v2 c2 h2) _ _ _ _ hgo
            x (addId_sub _ hx)

/-- A stronger filter keeps at most as many elements. -/
theorem filter_length_mono {l : List String} {p q : String → Bool}
    (h : ∀ x, q x = true → p x = true) :
    (l.filter q).length ≤ (l.filter p).length := by
  induction l with
  | nil => simp
  | cons b rest ih =>
    rw [List.filter_cons, List.filter_cons]
    by_cases hq : q b = true
    · rw [hq, h b hq]
      simpa using ih
    · have hqf : q b = false := Bool.eq_false_iff.mpr hq
      rw [hqf]
      simp only [Bool.false_eq_true, if_false]
      cases hp : p b
      · simpa using ih
      · simp only [if_true, List.length_cons]
        exact Nat.le_succ_of_le ih

/-- A strictly stronger filter (witnessed at a member) keeps strictly
fewer elements. -/
theorem filter_length_strict {l : List String} {p q : String → Bool}
    (h : ∀ x, q x = true → p x = true) (a : String) (ha : a ∈ l)
    (hpa : p a = true) (hqa : q a = false) :
    (l.filter q).length < (l.filter p).length := by
  induction l with
  | nil => cases ha
  | cons b rest ih =>
    rw [List.filter_cons, List.filter_cons]
    by_cases hb : b = a
    · subst hb
      rw [hpa, hqa]
      simp only [if_true, Bool.false_eq_true, if_false, List.length_cons]
      exact Nat.lt_succ_of_le (filter_length_mono h)
    · have ha2 : a ∈ rest := by
        rcases List.mem_cons.mp ha with h2 | h2
        · exact absurd h2.symm hb
        · exact h2
      by_cases hqb : q b = true
      · rw [hqb, h b hqb]
        simp only [if_true, List.length_cons]
        exact Nat.succ_lt_succ (ih ha2)
      · have hqbf : q b = false := Bool.eq_false_iff.mpr hqb
        rw [hqbf]
        simp only [Bool.false_eq_true, if_false]
        cases hpb : p b
        · exact ih ha2
        · simp only [if_true, List.length_cons]
          exact Nat.lt_succ_of_lt (ih ha2)

/-- Growing the visited set cannot increase the fresh count. -/
theorem freshCount_anti {modules : List ModuleInfo} {v1 v2 : List String}
    (h : ∀ x ∈ v1, x ∈ v2) :
    freshCount modules v2 ≤ freshCount modules v1 := by
  apply filter_length_mono
  intro x hx
  simp only [Bool.not_eq_true'] at hx ⊢
  cases hv1 : v1.contains x with
  | false => rfl
  | true =>
    exfalso
    have hx2 : v2.contains x = true :=
      List.elem_iff.mpr (h x (List.elem_iff.mp hv1))
    rw [hx2] at hx
    cases hx

/-- Visiting a record's id strictly decreases the fresh count. -/
theorem freshCount_strict {modules : List ModuleInfo} {v : List String}
    {m : ModuleInfo} (hm : m ∈ modules) (hnv : v.contains m.id = false) :
    freshCount modules (addId v m.id) < freshCount modules v := by
  unfold freshCount
  refine filter_length_strict ?_ m.id ?_ ?_ ?_
  · intro x hx
    simp only [Bool.not_eq_true'] at hx ⊢
    cases hvx : v.contains x with
    | false => rfl
    | true =>
      exfalso
      have h2 : (addId v m.id).contains x = true :=
        List.elem_iff.mpr (addId_sub _ (List.elem_iff.mp hvx))
      rw [h2] at hx
      cases hx
  · exact List.mem_map.mpr ⟨m, hm, rfl⟩
  · simp only [Bool.not_eq_true']
    exact hnv
  · simp only [Bool.not_eq_false']
    exact List.elem_iff.mpr self_mem_addId

/-- The import loop gives equal results for two recursive calls that agree
on every module over visited sets extending the loop's starting one. -/
theorem attdGo_congr {modules : List ModuleInfo} {base : List String}
    {rec1 rec2 : ModuleInfo → List String → Cache →
      Option (List String × Cache × List String)}
    (hmono : ∀ m v c r, rec1 m v c = some r → ∀ x ∈ v, x ∈ r.2.2)
    (hagree : ∀ m v c, m ∈ modules → (∀ x ∈ base, x ∈ v) →
      rec1 m v c = rec2 m v c) :
    ∀ (ds : List String) (v : List String) (cc : Cache) (acc : List String),
      (∀ x ∈ base, x ∈ v) →
      attdGo modules rec1 ds v cc acc = attdGo modules rec2 ds v cc acc := by
  intro ds
  induction ds with
  | nil => intro v cc acc _; rfl
  | cons d rest ih =>
    intro v cc acc hv
    cases hfind : findModule modules d with
    | none => simp [attdGo, hfind]
    | some depM =>
      have hdep := findModule_eq_some hfind
      have heq := hagree depM v cc hdep.1 hv
      cases hr : rec1 depM v cc with
      | none =>
        have hr2 : rec2 depM v cc = none := heq ▸ hr
        simp [attdGo, hfind, hr, hr2]
      | some r2 =>
        obtain ⟨tdeps, ccr, visr⟩ := r2
        have hr2 : rec2 depM v cc = some (tdeps, ccr, visr) := heq ▸ hr
        simp only [attdGo, hfind, hr, hr2]
        exact ih visr ccr _ (fun x hx => hmono depM v cc _ hr x (hv x hx))

/-- Fuel stabilization for the closure computation: any fuel beyond the
number of unvisited record ids (plus one) produces the same result. -/
theorem attdAux_stab {modules : List ModuleInfo} :
    ∀ (k : Nat) (m : ModuleInfo) (visited : List String) (cc : Cache),
      m ∈ modules → freshCount modules visited ≤ k →
      ∀ (f1 f2 : Nat), k + 1 ≤ f1 → k + 1 ≤ f2 →
      attdAux modules f1 m visited cc = attdAux modules f2 m visited cc := by
  intro k
  induction k using Nat.strong_induction_on with
  | _ k ih =>
    intro m visited cc hm hfc f1 f2 hf1 hf2
    obtain ⟨g1, rfl⟩ : ∃ g, f1 = g + 1 := ⟨f1 - 1, by omega⟩
    obtain ⟨g2, rfl⟩ : ∃ g, f2 = g + 1 := ⟨f2 - 1, by omega⟩
    cases hcache : alookup cc m.id with
    | some v => simp only [attdAux, hcache]
    | none =>
      simp only [attdAux, hcache]
      by_cases hvis : visited.contains m.id = true
      · rw [if_pos hvis, if_pos hvis]
      · rw [if_neg hvis, if_neg hvis]
        have hstrict := freshCount_strict hm (Bool.eq_false_iff.mpr hvis)
        have hgo := attdGo_congr
          (fun m2 v2 c2 r h2 => attdAux_vis g1 m2 v2 c2 h2)
          (fun m2 v2 c2 hm2 hsup => ih (k - 1) (by omega) m2 v2 c2 hm2
            (le_trans (freshCount_anti hsup) (by omega)) g1 g2 (by omega)
            (by omega))
          m.importedIds (addId visited m.id) cc [] (fun x hx => hx)
        rw [hgo]

/-- Every record's import count is bounded by the maximal degree. -/
theorem maxDeg_bound {l : List ModuleInfo} {x : ModuleInfo} (hx : x ∈ l) :
    x.importedIds.length ≤ maxDeg l := by
  induction l with
  | nil => cases hx
  | cons b rest ih =>
    simp only [maxDeg, List.foldr_cons]
    rcases List.mem_cons.mp hx with rfl | hx2
    · exact le_max_left _ _
    · exact le_trans (ih hx2) (le_max_right _ _)

/-- A duplicate-free path over the entry and the records has at most
`n + 1` modules. -/
theorem nodup_path_len {modules : List ModuleInfo} {entry : ModuleInfo}
    {p : List ModuleInfo} (hnd : (p.map (fun m => m.id)).Nodup)
    (hmem : ∀ x ∈ p, x ∈ entry :: modules) :
    p.length ≤ modules.length + 1 := by
  have h1 : p.length = (p.map (fun m => m.id)).length := by
    rw [List.length_map]
  have h2 : (p.map (fun m => m.id)).toFinset.card =
      (p.map (fun m => m.id)).length := List.toFinset_card_of_nodup hnd
  have h3 : (p.map (fun m => m.id)).toFinset ⊆
      ((entry :: modules).map (fun m => m.id)).toFinset := by
    intro i hi
    rw [List.mem_toFinset] at hi ⊢
    rcases List.mem_map.mp hi with ⟨x, hx, rfl⟩
    exact List.mem_map.mpr ⟨x, hmem x hx, rfl⟩
  have h4 := Finset.card_le_card h3
  have h5 := List.toFinset_card_le ((entry :: modules).map (fun m => m.id))
  rw [List.length_map, List.length_cons] at h5
  omega

/-- Pushing the dependency extensions adds at most one weight-of-a-longer-
path term per listed import id to the stack potential. -/
theorem pushDeps_pot (entry : ModuleInfo) {modules : List ModuleInfo}
    {cond : List ModuleInfo → Bool} {path : List ModuleInfo} :
    ∀ (ds : List String) (stack : List (List ModuleInfo))
      (visited : List String) {stack2 : List (List ModuleInfo)},
      pushDeps modules cond path ds stack visited = some stack2 →
      stackPot modules entry stack2 ≤ stackPot modules entry stack +
        ds.length * (maxDeg (entry :: modules) + 1) ^
          (modules.length + 3 - (path.length + 1)) := by
  intro ds
  induction ds with
  | nil =>
    intro stack visited stack2 h
    cases h
    simp
  | cons d rest ih =>
    intro stack visited stack2 h
    unfold pushDeps at h
    split at h
    · calc stackPot modules entry stack2 ≤ stackPot modules entry stack +
          rest.length * (maxDeg (entry :: modules) + 1) ^
            (modules.length + 3 - (path.length + 1)) := ih _ _ h
        _ ≤ stackPot modules entry stack + (d :: rest).length *
            (maxDeg (entry :: modules) + 1) ^
              (modules.length + 3 - (path.length + 1)) := by
          refine Nat.add_le_add_left ?_ _
          refine Nat.mul_le_mul_right _ ?_
          simp
    · cases hfind : findModule modules d with
      | none => rw [hfind] at h; cases h
      | some depM =>
        rw [hfind] at h
        simp only at h
        by_cases hcnd : cond (path ++ [depM]) = true
        · rw [if_pos hcnd] at h
          have h2 := ih _ _ h
          have hlen : (path ++ [depM]).length = path.length + 1 := by
            simp
          have hpotc : stackPot modules entry ((path ++ [depM]) :: stack) =
              (maxDeg (entry :: modules) + 1) ^
                (modules.length + 3 - (path.length + 1)) +
              stackPot modules entry stack := by
            simp [stackPot, hlen]
          rw [hpotc] at h2
          calc stackPot modules entry stack2 ≤
              ((maxDeg (entry :: modules) + 1) ^
                (modules.length + 3 - (path.length + 1)) +
               stackPot modules entry stack) +
              rest.length * (maxDeg (entry :: modules) + 1) ^
                (modules.length + 3 - (path.length + 1)) := h2
            _ = stackPot modules entry stack + (rest.length + 1) *
                (maxDeg (entry :: modules) + 1) ^
                  (modules.length + 3 - (path.length + 1)) := by ring
            _ = stackPot modules entry stack + (d :: rest).length *
                (maxDeg (entry :: modules) + 1) ^
                  (modules.length + 3 - (path.length + 1)) := by
              rw [List.length_cons]
        · rw [if_neg hcnd] at h
          calc stackPot modules entry stack2 ≤ stackPot modules entry stack +
              rest.length * (maxDeg (entry :: modules) + 1) ^
                (modules.length + 3 - (path.length + 1)) := ih _ _ h
            _ ≤ stackPot modules entry stack + (d :: rest).length *
                (maxDeg (entry :: modules) + 1) ^
                  (modules.length + 3 - (path.length + 1)) := by
              refine Nat.add_le_add_left ?_ _
              refine Nat.mul_le_mul_right _ ?_
              simp

/-- One traversal step preserves the stack invariant. -/
theorem walkInv_step {modules : List ModuleInfo} {entry : ModuleInfo}
    {cond : List ModuleInfo → Bool} {path : List ModuleInfo}
    {rest stack2 : List (List ModuleInfo)} {visited : List String}
    {current : ModuleInfo}
    (hinv : WalkInv modules entry (path :: rest) visited)
    (hlast : path.getLast? = some current)
    (hpush : pushDeps modules cond path current.importedIds rest
      (addId visited current.id) = some stack2) :
    WalkInv modules entry stack2 (addId visited current.id) := by
  intro q hq
  rcases pushDeps_mem hpush q hq with hq2 | ⟨d, y, hd, hvc, hfind, hcnd, rfl⟩
  · obtain ⟨hne, hnd, hdl, hel⟩ := hinv q (List.mem_cons_of_mem _ hq2)
    exact ⟨hne, hnd, fun x hx => addId_sub _ (hdl x hx), hel⟩
  · obtain ⟨hne, hnd, hdl, hel⟩ := hinv path (List.mem_cons_self _ _)
    have hy := findModule_eq_some hfind
    have hyv : y.id ∉ addId visited current.id := by
      intro hmem
      rw [hy.2] at hmem
      exact absurd (List.elem_iff.mpr hmem) (Bool.eq_false_iff.mp hvc)
    have hpathvis : ∀ x ∈ path, x.id ∈ addId visited current.id := by
      intro x hx
      have hdecomp : path.dropLast ++ [path.getLast hne] = path :=
        List.dropLast_concat_getLast hne
      have hcur : path.getLast hne = current := by
        have := List.getLast?_eq_getLast path hne
        rw [hlast] at this
        exact (Option.some.inj this).symm
      rw [← hdecomp] at hx
      rcases List.mem_append.mp hx with hx2 | hx2
      · exact addId_sub _ (hdl x hx2)
      · rw [List.mem_singleton.mp hx2, hcur]
        exact self_mem_addId
    refine ⟨by simp, ?_, ?_, ?_⟩
    · rw [List.map_append, List.nodup_append]
      refine ⟨hnd, by simp, ?_⟩
      intro a ha hay
      rcases List.mem_map.mp ha with ⟨x, hx, rfl⟩
      have hxy : x.id = y.id := by simpa using hay
      exact hyv (hxy ▸ hpathvis x hx)
    · intro x hx
      rw [List.dropLast_concat] at hx
      exact hpathvis x hx
    · intro x hx
      rcases List.mem_append.mp hx with hx2 | hx2
      · exact hel x hx2
      · rw [List.mem_singleton.mp hx2]
        exact List.mem_cons_of_mem _ hy.1

/-- One traversal step strictly decreases the stack potential: the popped
path's weight exceeds the combined weight of everything it pushes. -/
theorem stackPot_step {modules : List ModuleInfo} {entry : ModuleInfo}
    {cond : List ModuleInfo → Bool} {path : List ModuleInfo}
    {rest stack2 : List (List ModuleInfo)} {visited : List String}
    {current : ModuleInfo}
    (hinv : WalkInv modules entry (path :: rest) visited)
    (hlast : path.getLast? = some current)
    (hpush : pushDeps modules cond path current.importedIds rest
      (addId visited current.id) = some stack2) :
    stackPot modules entry stack2 < stackPot modules entry (path :: rest) := by
  obtain ⟨hne, hnd, hdl, hel⟩ := hinv path (List.mem_cons_self _ _)
  have hlen : path.length ≤ modules.length + 1 := nodup_path_len hnd hel
  have hcur : current ∈ entry :: modules :=
    hel current (List.mem_of_mem_getLast? hlast)
  have hdeg : current.importedIds.length ≤ maxDeg (entry :: modules) :=
    maxDeg_bound hcur
  have hpot := pushDeps_pot entry current.importedIds rest
    (addId visited current.id) hpush
  have hposlen : 1 ≤ path.length := by
    cases path with
    | nil => exact absurd rfl hne
    | cons a b => simp
  have hexp : modules.length + 3 - path.length =
      (modules.length + 3 - (path.length + 1)) + 1 := by omega
  have hpow : (maxDeg (entry :: modules) + 1) ^
      (modules.length + 3 - path.length) =
      (maxDeg (entry :: modules) + 1) ^
        (modules.length + 3 - (path.length + 1)) *
      (maxDeg (entry :: modules) + 1) := by
    rw [hexp, pow_succ]
  have hppos : 0 < (maxDeg (entry :: modules) + 1) ^
      (modules.length + 3 - (path.length + 1)) :=
    Nat.pos_pow_of_pos _ (by omega)
  have hmul : current.importedIds.length * (maxDeg (entry :: modules) + 1) ^
      (modules.length + 3 - (path.length + 1)) <
      (maxDeg (entry :: modules) + 1) ^
        (modules.length + 3 - path.length) := by
    rw [hpow]
    calc current.importedIds.length * (maxDeg (entry :: modules) + 1) ^
        (modules.length + 3 - (path.length + 1)) ≤
        maxDeg (entry :: modules) * (maxDeg (entry :: modules) + 1) ^
          (modules.length + 3 - (path.length + 1)) :=
        Nat.mul_le_mul_right _ hdeg
      _ < (maxDeg (entry :: modules) + 1) *
          (maxDeg (entry :: modules) + 1) ^
            (modules.length + 3 - (path.length + 1)) :=
        Nat.mul_lt_mul_of_pos_right (by omega) hppos
      _ = (maxDeg (entry :: modules) + 1) ^
            (modules.length + 3 - (path.length + 1)) *
          (maxDeg (entry :: modules) + 1) := Nat.mul_comm _ _
  have hpotc : stackPot modules entry (path :: rest) =
      (maxDeg (entry :: modules) + 1) ^ (modules.length + 3 - path.length) +
      stackPot modules entry rest := by
    simp [stackPot]
  rw [hpotc]
  omega

/-- Fuel stabilization for the traversal loop: any fuel beyond the stack
potential (plus one) produces the same result. -/
theorem reachAux_stab {modules : List ModuleInfo} {entry : ModuleInfo}
    {cond : List ModuleInfo → Bool} :
    ∀ (N : Nat) (stack : List (List ModuleInfo)) (visited : List String),
      WalkInv modules entry stack visited →
      stackPot modules entry stack ≤ N →
      ∀ (f1 f2 : Nat), N + 1 ≤ f1 → N + 1 ≤ f2 →
      reachAux modules cond f1 stack visited =
        reachAux modules cond f2 stack visited := by
  intro N
  induction N using Nat.strong_induction_on with
  | _ N ih =>
    intro stack visited hinv hpot f1 f2 hf1 hf2
    obtain ⟨g1, rfl⟩ : ∃ g, f1 = g + 1 := ⟨f1 - 1, by omega⟩
    obtain ⟨g2, rfl⟩ : ∃ g, f2 = g + 1 := ⟨f2 - 1, by omega⟩
    cases stack with
    | nil => simp [reachAux]
    | cons path rest =>
      cases hlast : path.getLast? with
      | none => simp [reachAux, hlast]
      | some current =>
        cases hpush : pushDeps modules cond path current.importedIds rest
            (addId visited current.id) with
        | none => simp [reachAux, hlast, hpush]
        | some stack2 =>
          have hinv2 := walkInv_step hinv hlast hpush
          have hlt := stackPot_step hinv hlast hpush
          have heq : reachAux modules cond g1 stack2
              (addId visited current.id) =
              reachAux modules cond g2 stack2 (addId visited current.id) :=
            ih (N - 1) (by omega) stack2 _ hinv2 (by omega) g1 g2 (by omega)
              (by omega)
          simp only [reachAux, hlast, hpush]
          rw [heq]


/-- C9: for every finite record collection — collections with import
cycles included — both the transitive-closure computation and the
reachability traversal terminate with finite results: their fuel-indexed
models stabilize at the explicit bounds `attdFuel` and `walkFuel`, so
giving the loops any more fuel never changes the outcome. -/
theorem C9_termination_stable (modules : List ModuleInfo) (m entry : ModuleInfo)
    (cond : List ModuleInfo → Bool) (cc : Cache) (hm : m ∈ modules) :
    (∀ f, attdFuel modules ≤ f →
      attdAux modules f m [] cc = attdAux modules (attdFuel modules) m [] cc) ∧
    (∀ f, walkFuel modules entry ≤ f →
      reachAux modules cond f [[entry]] [] =
        reachAux modules cond (walkFuel modules entry) [[entry]] []) := by
  constructor
  · intro f hf
    have hfc : freshCount modules [] ≤ modules.length + 1 := by
      unfold freshCount
      calc (List.filter (fun i => !(List.contains [] i))
            (modules.map (fun m => m.id))).length ≤
          (modules.map (fun m => m.id)).length := List.length_filter_le _ _
        _ = modules.length := List.length_map _ _
        _ ≤ modules.length + 1 := Nat.le_succ _
    refine attdAux_stab (modules.length + 1) m [] cc hm hfc f (attdFuel modules)
      ?_ ?_
    · unfold attdFuel at hf
      omega
    · unfold attdFuel
      omega
  · intro f hf
    have hinv : WalkInv modules entry [[entry]] [] := by
      intro p hp
      rw [List.mem_singleton.mp hp]
      refine ⟨by simp, by simp, by simp, ?_⟩
      intro x hx
      rw [List.mem_singleton.mp hx]
      exact List.mem_cons_self _ _
    have hexp1 : modules.length + 3 - 1 = modules.length + 2 := by omega
    have hpot : stackPot modules entry [[entry]] ≤
        (maxDeg (entry :: modules) + 1) ^ (modules.length + 2) := by
      simp [stackPot, hexp1]
    refine reachAux_stab ((maxDeg (entry :: modules) + 1) ^
        (modules.length + 2)) [[entry]] [] hinv hpot f
      (walkFuel modules entry) ?_ ?_
    · unfold walkFuel at hf
      omega
    · unfold walkFuel
      omega

/-- C9 witness: stabilization at the scenario graph's entry module. -/
theorem C9_witness :
    (∀ f, attdFuel gEAB ≤ f →
      attdAux gEAB f mE [] [] = attdAux gEAB (attdFuel gEAB) mE [] []) ∧
    (∀ f, walkFuel gEAB mE ≤ f →
      reachAux gEAB (fun _ => true) f [[mE]] [] =
        reachAux gEAB (fun _ => true) (walkFuel gEAB mE) [[mE]] []) :=
  C9_termination_stable gEAB mE mE (fun _ => true) [] (by decide)


/-- A dependency-push step never removes pending paths: the incoming stack
is contained in the resulting stack. -/
theorem pushDeps_keep {modules : List ModuleInfo}
    {cond : List ModuleInfo → Bool} {path : List ModuleInfo} :
    ∀ {ds : List String} {stack : List (List ModuleInfo)}
      {visited : List String} {stack2 : List (List ModuleInfo)},
    pushDeps modules cond path ds stack visited = some stack2 →
    ∀ q ∈ stack, q ∈ stack2 := by
  intro ds
  induction ds with
  | nil =>
    intro stack visited stack2 h q hq
    unfold pushDeps at h
    cases h
    exact hq
  | cons d rest ih =>
    intro stack visited stack2 h q hq
    unfold pushDeps at h
    split at h
    · exact ih h q hq
    · cases hfind : findModule modules d with
      | none => rw [hfind] at h; cases h
      | some depM =>
        rw [hfind] at h
        simp only at h
        split at h
        · exact ih h q (List.mem_cons_of_mem _ hq)
        · exact ih h q hq

/-- A dependency-push step pushes the extension for every import that is
unvisited, resolvable and allowed by the condition. -/
theorem pushDeps_push {modules : List ModuleInfo}
    {cond : List ModuleInfo → Bool} {path : List ModuleInfo} :
    ∀ {ds : List String} {stack : List (List ModuleInfo)}
      {visited : List String} {stack2 : List (List ModuleInfo)},
    pushDeps modules cond path ds stack visited = some stack2 →
    ∀ {d : String} {y : ModuleInfo}, d ∈ ds → findModule modules d = some y →
      visited.contains d = false → cond (path ++ [y]) = true →
      (path ++ [y]) ∈ stack2 := by
  intro ds
  induction ds with
  | nil =>
    intro stack visited stack2 h d y hd
    exact absurd hd (List.not_mem_nil d)
  | cons d0 rest ih =>
    intro stack visited stack2 h d y hd hfy hvis hcnd
    unfold pushDeps at h
    split at h
    · rename_i hv0
      rcases List.mem_cons.mp hd with rfl | hm
      · rw [hv0] at hvis; cases hvis
      · exact ih h hm hfy hvis hcnd
    · cases hfind : findModule modules d0 with
      | none => rw [hfind] at h; cases h
      | some depM =>
        rw [hfind] at h
        simp only at h
        rcases List.mem_cons.mp hd with rfl | hm
        · rw [hfy] at hfind
          cases hfind
          rw [if_pos hcnd] at h
          exact pushDeps_keep h _ (List.mem_cons_self _ _)
        · split at h
          · exact ih h hm hfy hvis hcnd
          · exact ih h hm hfy hvis hcnd

/-- Every pending path's terminal module is eventually yielded: the loop
pops each stack entry exactly once and yields its terminal. -/
theorem reachAux_terminal_mem {modules : List ModuleInfo}
    {cond : List ModuleInfo → Bool} :
    ∀ (fuel : Nat) {stack : List (List ModuleInfo)} {visited : List String}
      {out : List ModuleInfo},
    reachAux modules cond fuel stack visited = some out →
    ∀ q ∈ stack, ∀ t, q.getLast? = some t → t ∈ out := by
  intro fuel
  induction fuel with
  | zero => intro stack visited out h; cases h
  | succ fuel ih =>
    intro stack visited out h q hq t ht
    cases stack with
    | nil => exact absurd hq (List.not_mem_nil q)
    | cons path rest =>
      cases hlast : path.getLast? with
      | none => simp only [reachAux, hlast] at h; cases h
      | some current =>
        simp only [reachAux, hlast] at h
        cases hpush : pushDeps modules cond path current.importedIds rest
            (addId visited current.id) with
        | none => rw [hpush] at h; cases h
        | some stack2 =>
          rw [hpush] at h
          simp only at h
          cases hrec : reachAux modules cond fuel stack2
              (addId visited current.id) with
          | none => rw [hrec] at h; cases h
          | some out2 =>
            rw [hrec] at h
            simp only [Option.map_some'] at h
            cases h
            rcases List.mem_cons.mp hq with rfl | hq2
            · rw [hlast] at ht
              cases ht
              exact List.mem_cons_self _ _
            · exact List.mem_cons_of_mem _
                (ih hrec q (pushDeps_keep hpush q hq2) t ht)

/-- Invariant soundness of the walker: any property that holds of every
pending terminal and is preserved along condition-allowed import extensions
holds of every yielded module. -/
theorem reachAux_sound {modules : List ModuleInfo}
    {cond : List ModuleInfo → Bool} (P : ModuleInfo → Prop)
    (hstep : ∀ (pth : List ModuleInfo) (x y : ModuleInfo) (d : String),
      P x → pth.getLast? = some x → d ∈ x.importedIds →
      findModule modules d = some y → cond (pth ++ [y]) = true → P y) :
    ∀ (fuel : Nat) {stack : List (List ModuleInfo)} {visited : List String}
      {out : List ModuleInfo},
    reachAux modules cond fuel stack visited = some out →
    (∀ q ∈ stack, ∀ t, q.getLast? = some t → P t) →
    ∀ x ∈ out, P x := by
  intro fuel
  induction fuel with
  | zero => intro stack visited out h; cases h
  | succ fuel ih =>
    intro stack visited out h hstack x hx
    cases stack with
    | nil =>
      simp only [reachAux] at h
      cases h
      exact absurd hx (List.not_mem_nil x)
    | cons path rest =>
      cases hlast : path.getLast? with
      | none => simp only [reachAux, hlast] at h; cases h
      | some current =>
        simp only [reachAux, hlast] at h
        cases hpush : pushDeps modules cond path current.importedIds rest
            (addId visited current.id) with
        | none => rw [hpush] at h; cases h
        | some stack2 =>
          rw [hpush] at h
          simp only at h
          cases hrec : reachAux modules cond fuel stack2
              (addId visited current.id) with
          | none => rw [hrec] at h; cases h
          | some out2 =>
            rw [hrec] at h
            simp only [Option.map_some'] at h
            cases h
            have hPc : P current :=
              hstack path (List.mem_cons_self _ _) current hlast
            rcases List.mem_cons.mp hx with rfl | hx2
            · exact hPc
            · refine ih hrec ?_ x hx2
              intro q hq t ht
              rcases pushDeps_mem hpush q hq with hq2 | ⟨d, y, hd, _, hf, hc, rfl⟩
              · exact hstack q (List.mem_cons_of_mem _ hq2) t ht
              · rw [List.getLast?_concat] at ht
                cases ht
                exact hstep path current t d hPc hlast hd hf hc

/-- Step-completeness of the walker for conditions that only ever reject
paths ending at one fixed id: following a resolvable import from a yielded
module to a module of a different id lands on a yielded module or an
already-visited id. -/
theorem reachAux_step_closed {modules : List ModuleInfo}
    {cond : List ModuleInfo → Bool} {mid : String}
    (hcond : ∀ (p : List ModuleInfo) (y : ModuleInfo), p.getLast? = some y →
      cond p = false → y.id = mid) :
    ∀ (fuel : Nat) {stack : List (List ModuleInfo)} {visited : List String}
      {out : List ModuleInfo},
    reachAux modules cond fuel stack visited = some out →
    (∀ q ∈ stack, ∃ t, q.getLast? = some t ∧
      findModule modules t.id = some t) →
    ∀ x ∈ out, ∀ d ∈ x.importedIds, ∀ y, findModule modules d = some y →
      y.id ≠ mid → y ∈ out ∨ y.id ∈ visited := by
  intro fuel
  induction fuel with
  | zero => intro stack visited out h; cases h
  | succ fuel ih =>
    intro stack visited out h hcanon x hx d hd y hfy hyne
    cases stack with
    | nil =>
      simp only [reachAux] at h
      cases h
      exact absurd hx (List.not_mem_nil x)
    | cons path rest =>
      cases hlast : path.getLast? with
      | none => simp only [reachAux, hlast] at h; cases h
      | some current =>
        simp only [reachAux, hlast] at h
        cases hpush : pushDeps modules cond path current.importedIds rest
            (addId visited current.id) with
        | none => rw [hpush] at h; cases h
        | some stack2 =>
          rw [hpush] at h
          simp only at h
          cases hrec : reachAux modules cond fuel stack2
              (addId visited current.id) with
          | none => rw [hrec] at h; cases h
          | some out2 =>
            rw [hrec] at h
            simp only [Option.map_some'] at h
            cases h
            have hcur : findModule modules current.id = some current := by
              obtain ⟨t, htl, htf⟩ := hcanon path (List.mem_cons_self _ _)
              rw [hlast] at htl
              cases htl
              exact htf
            have hsame : y.id = current.id → y = current := by
              intro hyc
              have h1 := findModule_self hfy
              rw [hyc, hcur] at h1
              exact (Option.some.inj h1).symm
            have hcanon2 : ∀ q ∈ stack2, ∃ t, q.getLast? = some t ∧
                findModule modules t.id = some t := by
              intro q hq
              rcases pushDeps_mem hpush q hq with hq2 | ⟨d2, y2, _, _, hf2, _, rfl⟩
              · exact hcanon q (List.mem_cons_of_mem _ hq2)
              · exact ⟨y2, List.getLast?_concat _, findModule_self hf2⟩
            rcases List.mem_cons.mp hx with rfl | hx2
            · by_cases hyv : y.id ∈ addId visited x.id
              · rcases mem_addId.mp hyv with hv | hyc
                · exact Or.inr hv
                · have := hsame hyc
                  subst this
                  exact Or.inl (List.mem_cons_self _ _)
              · have hyd : y.id = d := (findModule_eq_some hfy).2
                have hvc : (addId visited x.id).contains d = false := by
                  cases hcv : (addId visited x.id).contains d
                  · rfl
                  · exact absurd (hyd ▸ List.elem_iff.mp hcv) hyv
                have hcp : cond (path ++ [y]) = true := by
                  cases hcp2 : cond (path ++ [y])
                  · exact absurd
                      (hcond (path ++ [y]) y (List.getLast?_concat _) hcp2) hyne
                  · rfl
                have hpm := pushDeps_push hpush hd hfy hvc hcp
                exact Or.inl (List.mem_cons_of_mem _
                  (reachAux_terminal_mem fuel hrec (path ++ [y]) hpm y
                    (List.getLast?_concat _)))
            · rcases ih hrec hcanon2 x hx2 d hd y hfy hyne with hy | hy
              · exact Or.inl (List.mem_cons_of_mem _ hy)
              · rcases mem_addId.mp hy with hv | hyc
                · exact Or.inr hv
                · have := hsame hyc
                  subst this
                  exact Or.inl (List.mem_cons_self _ _)

/-- A successful walk started on the singleton entry path yields the
entry module. -/
theorem reachAux_entry_mem {modules : List ModuleInfo}
    {cond : List ModuleInfo → Bool} {f : Nat} {e : ModuleInfo}
    {out : List ModuleInfo}
    (h : reachAux modules cond f [[e]] [] = some out) : e ∈ out :=
  reachAux_terminal_mem f h [e] (List.mem_cons_self _ _) e (by simp)

/-- Pointwise id agreement of two equally long module lists gives equal
id lists. -/
theorem zip_all_ids_eq :
    ∀ {p q : List ModuleInfo}, p.length = q.length →
    ((p.zip q).all (fun ab => ab.1.id == ab.2.id)) = true →
    p.map (fun m => m.id) = q.map (fun m => m.id) := by
  intro p
  induction p with
  | nil =>
    intro q hlen _
    rw [List.eq_nil_of_length_eq_zero hlen.symm]
  | cons a p2 ih =>
    intro q hlen hall
    cases q with
    | nil => simp at hlen
    | cons b q2 =>
      simp only [List.zip_cons_cons, List.all_cons, Bool.and_eq_true] at hall
      simp only [List.map_cons, List.cons.injEq]
      exact ⟨eq_of_beq hall.1,
        ih (by simpa using hlen) hall.2⟩

/-- The unique-walk condition only rejects paths whose terminal id equals
the terminal id of the reference path. -/
theorem condUnique_false_terminal {path p : List ModuleInfo}
    {y mm : ModuleInfo} (hy : p.getLast? = some y)
    (hmm : path.getLast? = some mm) (hc : condUnique path p = false) :
    y.id = mm.id := by
  unfold condUnique at hc
  rw [Bool.not_eq_false'] at hc
  rw [Bool.and_eq_true] at hc
  obtain ⟨hlen, hall⟩ := hc
  have hlen2 : p.length = path.length := by simpa using hlen
  have hmap := zip_all_ids_eq hlen2 hall
  have h1 : (p.map (fun m => m.id)).getLast? = some y.id := by
    rw [List.getLast?_map, hy]; rfl
  have h2 : (path.map (fun m => m.id)).getLast? = some mm.id := by
    rw [List.getLast?_map, hmm]; rfl
  rw [hmap, h2] at h1
  exact (Option.some.inj h1).symm

/-- The unignored-size sum is monotone under sublists. -/
theorem sumUn_sublist {ign : List String} {l1 l2 : List ModuleInfo}
    (h : List.Sublist l1 l2) : sumUn ign l1 ≤ sumUn ign l2 := by
  induction h with
  | slnil => exact Nat.le_refl _
  | cons a _ ih =>
    exact Nat.le_trans ih (by simp only [sumUn]; omega)
  | cons₂ a _ ih =>
    simp only [sumUn]
    omega

/-- C7: for any collection, ignore set, entry `e` and import path ending at
`m`, whenever `unique(e, path)` and `removed(e, m)` both return values, the
removed size is at least the unique size: every module the unique walk
fails to reach (rejecting only the one exact path) is also missed by the
removed walk (rejecting every path ending at `m`), so removed deletes a
subset of what unique deletes from the same reachable set. -/
theorem C7_removed_ge_unique (modules : List ModuleInfo) (ign : List String)
    (e m : ModuleInfo) (path : List ModuleInfo) (u r : Nat)
    (hlast : path.getLast? = some m)
    (he : findModule modules e.id = some e)
    (hu : uniqueCompute modules ign e path = some u)
    (hr : removedCompute modules ign e m = some r) :
    u ≤ r := by
  cases hA : reachableFrom modules m (fun _ => true) with
  | none =>
    simp only [uniqueCompute, hlast, hA] at hu
    cases hu
  | some aL =>
    cases hBu : reachableFrom modules e (condUnique path) with
    | none =>
      simp only [uniqueCompute, hlast, hA, hBu] at hu
      cases hu
    | some bU =>
      cases hBr : reachableFrom modules e (condRemoved m) with
      | none =>
        simp only [removedCompute, hA, hBr] at hr
        cases hr
      | some bR =>
        simp only [uniqueCompute, hlast, hA, hBu] at hu
        simp only [removedCompute, hA, hBr] at hr
        cases hu
        cases hr
        have hsub : ∀ x ∈ bR, x ∈ bU := by
          by_cases hem : e.id = m.id
          · simp only [reachableFrom, condRemoved, List.getLast?_singleton,
              hem, beq_self_eq_true, Bool.not_true, Bool.false_eq_true,
              if_false] at hBr
            cases hBr
            intro x hx
            exact absurd hx (List.not_mem_nil x)
          · have hcr0 : condRemoved m [e] = true := by
              simp [condRemoved, hem]
            have hcu0 : condUnique path [e] = true := by
              cases hc : condUnique path [e]
              · exact absurd
                  (condUnique_false_terminal (List.getLast?_singleton e)
                    hlast hc) hem
              · rfl
            rw [reachableFrom, if_pos hcr0] at hBr
            rw [reachableFrom, if_pos hcu0] at hBu
            have hsound : ∀ x ∈ bR, AvoidTo modules e m.id x := by
              refine reachAux_sound (AvoidTo modules e m.id) ?_ _ hBr ?_
              · intro pth x y d hP _ hd hf hcnd
                refine AvoidTo.step hP hd hf ?_
                simp only [condRemoved, List.getLast?_concat,
                  Bool.not_eq_true'] at hcnd
                simpa using hcnd
              · intro q hq t ht
                rw [List.mem_singleton.mp hq] at ht
                rw [List.getLast?_singleton] at ht
                cases ht
                exact AvoidTo.base hem
            have hcomplete : ∀ x, AvoidTo modules e m.id x → x ∈ bU := by
              intro x hav
              induction hav with
              | base hne => exact reachAux_entry_mem hBu
              | step hx hd hf hne ih =>
                have hcl := reachAux_step_closed
                  (fun p y hy hc => condUnique_false_terminal hy hlast hc)
                  _ hBu ?_ _ ih _ hd _ hf hne
                · rcases hcl with hy | hy
                  · exact hy
                  · exact absurd hy (List.not_mem_nil _)
                · intro q hq
                  rw [List.mem_singleton.mp hq]
                  exact ⟨e, List.getLast?_singleton e, he⟩
            exact fun x hx => hcomplete x (hsound x hx)
        refine sumUn_sublist (List.monotone_filter_right _ ?_)
        intro x hx
        simp only [Bool.not_eq_true', decide_eq_false_iff_not] at hx ⊢
        exact fun hxr => hx (hsub x hxr)

/-- Witness for C7 on the spec scenario graph: unique(E, [E,A,B]) = 5 and
removed(E, B) = 5, and 5 ≤ 5. -/
theorem C7_witness : (5 : Nat) ≤ 5 :=
  C7_removed_ge_unique gEAB [] mE mB [mE, mA, mB] 5 5 (by decide) (by decide)
    (by decide) (by decide)


/-- Structural invariants of the closure loop, relative to the cache the
top-level call started from: original cache entries persist unchanged, new
cache keys are visited, incoming visited ids and the accumulator are kept,
newly visited modules land in the result with every import either visited
or served by an original cache entry that was folded into the result, and
so does every listed import. -/
theorem attdGoCompl {modules : List ModuleInfo} {cc0 : Cache}
    (rec : ModuleInfo → List String → Cache →
      Option (List String × Cache × List String))
    (hrec : ∀ m visited cc deps cc2 vis2,
      (∀ k v, alookup cc0 k = some v → alookup cc k = some v) →
      (∀ k, (alookup cc k).isSome = true →
        (alookup cc0 k).isSome = true ∨ k ∈ visited) →
      findModule modules m.id = some m →
      rec m visited cc = some (deps, cc2, vis2) →
      (∀ k v, alookup cc0 k = some v → alookup cc2 k = some v) ∧
      (∀ k, (alookup cc2 k).isSome = true →
        (alookup cc0 k).isSome = true ∨ k ∈ vis2) ∧
      (∀ i ∈ visited, i ∈ vis2) ∧
      (∀ y ∈ vis2, y ∈ visited ∨ y = m.id ∨ y ∈ deps) ∧
      (∀ y ∈ vis2, y ∉ visited → ∀ z, EdgeRel modules y z →
        z ∈ deps ∧ (z ∈ vis2 ∨ ∃ v, alookup cc0 z = some v ∧
          ∀ w ∈ v, w ∈ deps)) ∧
      ((∃ v, alookup cc0 m.id = some v ∧ ∀ w ∈ v, w ∈ deps) ∨
        m.id ∈ vis2 ∨ m.id ∈ visited)) :
    ∀ (ds visited : List String) (cc : Cache) (acc res : List String)
      (cc2 : Cache) (vis2 : List String),
    (∀ k v, alookup cc0 k = some v → alookup cc k = some v) →
    (∀ k, (alookup cc k).isSome = true →
      (alookup cc0 k).isSome = true ∨ k ∈ visited) →
    attdGo modules rec ds visited cc acc = some (res, cc2, vis2) →
    (∀ k v, alookup cc0 k = some v → alookup cc2 k = some v) ∧
    (∀ k, (alookup cc2 k).isSome = true →
      (alookup cc0 k).isSome = true ∨ k ∈ vis2) ∧
    (∀ i ∈ visited, i ∈ vis2) ∧
    (∀ y ∈ vis2, y ∈ visited ∨ y ∈ res) ∧
    (∀ y ∈ vis2, y ∉ visited → ∀ z, EdgeRel modules y z →
      z ∈ res ∧ (z ∈ vis2 ∨ ∃ v, alookup cc0 z = some v ∧
        ∀ w ∈ v, w ∈ res)) ∧
    (∀ w ∈ acc, w ∈ res) ∧
    (∀ d ∈ ds, d ∈ res ∧ (d ∈ vis2 ∨ ∃ v, alookup cc0 d = some v ∧
      ∀ w ∈ v, w ∈ res)) := by
  intro ds
  induction ds with
  | nil =>
    intro visited cc acc res cc2 vis2 hext hnewk h
    unfold attdGo at h
    rw [Option.some.injEq, Prod.mk.injEq, Prod.mk.injEq] at h
    obtain ⟨h1, h2, h3⟩ := h
    subst h1
    subst h2
    subst h3
    exact ⟨hext, hnewk, fun i hi => hi, fun y hy => Or.inl hy,
      fun y hy hny => absurd hy hny, fun w hw => hw,
      fun d hd => absurd hd (List.not_mem_nil d)⟩
  | cons d rest ih =>
    intro visited cc acc res cc2 vis2 hext hnewk h
    unfold attdGo at h
    cases hfind : findModule modules d with
    | none => rw [hfind] at h; cases h
    | some depM =>
      rw [hfind] at h
      simp only at h
      cases hcall : rec depM visited cc with
      | none => rw [hcall] at h; cases h
      | some r =>
        obtain ⟨tdeps, ccr, visr⟩ := r
        rw [hcall] at h
        simp only at h
        have hdid : depM.id = d := (findModule_eq_some hfind).2
        subst hdid
        have hdm : findModule modules depM.id = some depM :=
          findModule_self hfind
        obtain ⟨r1, r2, r3, r4, r5, r6⟩ :=
          hrec depM visited cc tdeps ccr visr hext hnewk hdm hcall
        obtain ⟨g1, g2, g3, g4, g5, g6, g7⟩ :=
          ih visr ccr (tdeps.foldl addId (addId acc depM.id)) res cc2 vis2
            r1 r2 h
        have hacc2 : ∀ w, (w ∈ acc ∨ w = depM.id ∨ w ∈ tdeps) → w ∈ res := by
          intro w hw
          refine g6 w ?_
          rw [mem_foldl_addId, mem_addId]
          rcases hw with hw | hw | hw
          · exact Or.inl (Or.inl hw)
          · exact Or.inl (Or.inr hw)
          · exact Or.inr hw
        refine ⟨g1, g2, fun i hi => g3 i (r3 i hi), ?_, ?_,
          fun w hw => hacc2 w (Or.inl hw), ?_⟩
        · intro y hy
          by_cases hyv : y ∈ visr
          · rcases r4 y hyv with h4 | h4 | h4
            · exact Or.inl h4
            · exact Or.inr (hacc2 y (Or.inr (Or.inl h4)))
            · exact Or.inr (hacc2 y (Or.inr (Or.inr h4)))
          · rcases g4 y hy with h4 | h4
            · exact absurd h4 hyv
            · exact Or.inr h4
        · intro y hy hny z hz
          by_cases hyv : y ∈ visr
          · obtain ⟨h5a, h5b⟩ := r5 y hyv hny z hz
            refine ⟨hacc2 z (Or.inr (Or.inr h5a)), ?_⟩
            rcases h5b with h5b | ⟨v, hv0, hvsub⟩
            · exact Or.inl (g3 z h5b)
            · exact Or.inr ⟨v, hv0,
                fun w hw => hacc2 w (Or.inr (Or.inr (hvsub w hw)))⟩
          · exact g5 y hy hyv z hz
        · intro d2 hd2
          rcases List.mem_cons.mp hd2 with heq | hd3
          · subst heq
            refine ⟨hacc2 depM.id (Or.inr (Or.inl rfl)), ?_⟩
            rcases r6 with ⟨v, hv0, hvsub⟩ | h6 | h6
            · exact Or.inr ⟨v, hv0,
                fun w hw => hacc2 w (Or.inr (Or.inr (hvsub w hw)))⟩
            · exact Or.inl (g3 depM.id h6)
            · exact Or.inl (g3 depM.id (r3 depM.id h6))
          · exact g7 d2 hd3

/-- Structural invariants of `allTransitiveDependencies`, relative to the
cache the top-level call started from: original entries persist, new keys
are visited, newly visited modules other than the argument end up in the
result, every newly visited module's imports are in the result and either
visited or covered by an absorbed original cache entry, and the argument
itself is cache-served, visited, or was already visited. -/
theorem attdAuxCompl {modules : List ModuleInfo} {cc0 : Cache} :
    ∀ (fuel : Nat) (m : ModuleInfo) (visited : List String) (cc : Cache)
      (deps : List String) (cc2 : Cache) (vis2 : List String),
    (∀ k v, alookup cc0 k = some v → alookup cc k = some v) →
    (∀ k, (alookup cc k).isSome = true →
      (alookup cc0 k).isSome = true ∨ k ∈ visited) →
    findModule modules m.id = some m →
    attdAux modules fuel m visited cc = some (deps, cc2, vis2) →
    (∀ k v, alookup cc0 k = some v → alookup cc2 k = some v) ∧
    (∀ k, (alookup cc2 k).isSome = true →
      (alookup cc0 k).isSome = true ∨ k ∈ vis2) ∧
    (∀ i ∈ visited, i ∈ vis2) ∧
    (∀ y ∈ vis2, y ∈ visited ∨ y = m.id ∨ y ∈ deps) ∧
    (∀ y ∈ vis2, y ∉ visited → ∀ z, EdgeRel modules y z →
      z ∈ deps ∧ (z ∈ vis2 ∨ ∃ v, alookup cc0 z = some v ∧
        ∀ w ∈ v, w ∈ deps)) ∧
    ((∃ v, alookup cc0 m.id = some v ∧ ∀ w ∈ v, w ∈ deps) ∨
      m.id ∈ vis2 ∨ m.id ∈ visited) := by
  intro fuel
  induction fuel with
  | zero => intro m visited cc deps cc2 vis2 _ _ _ h; cases h
  | succ fuel ih =>
    intro m visited cc deps cc2 vis2 hext hnewk hm h
    cases hlk : alookup cc m.id with
    | some v =>
      simp only [attdAux, hlk] at h
      rw [Option.some.injEq, Prod.mk.injEq, Prod.mk.injEq] at h
      obtain ⟨h1, h2, h3⟩ := h
      subst h1
      subst h2
      subst h3
      refine ⟨hext, hnewk, fun i hi => hi, fun y hy => Or.inl hy,
        fun y hy hny => absurd hy hny, ?_⟩
      rcases hnewk m.id (by rw [hlk]; rfl) with h0 | h0
      · obtain ⟨v0, hv0⟩ := Option.isSome_iff_exists.mp h0
        have hvv := hext m.id v0 hv0
        rw [hlk] at hvv
        have hee : v = v0 := Option.some.inj hvv
        exact Or.inl ⟨v0, hv0, fun w hw => by rw [hee]; exact hw⟩
      · exact Or.inr (Or.inr h0)
    | none =>
      simp only [attdAux, hlk] at h
      by_cases hvc : visited.contains m.id = true
      · rw [if_pos hvc] at h
        rw [Option.some.injEq, Prod.mk.injEq, Prod.mk.injEq] at h
        obtain ⟨h1, h2, h3⟩ := h
        subst h1
        subst h2
        subst h3
        exact ⟨hext, hnewk, fun i hi => hi, fun y hy => Or.inl hy,
          fun y hy hny => absurd hy hny,
          Or.inr (Or.inr (List.elem_iff.mp hvc))⟩
      · rw [if_neg hvc] at h
        cases hgo : attdGo modules (attdAux modules fuel) m.importedIds
            (addId visited m.id) cc [] with
        | none => rw [hgo] at h; cases h
        | some r =>
          obtain ⟨res0, ccg, visg⟩ := r
          rw [hgo] at h
          simp only at h
          rw [Option.some.injEq, Prod.mk.injEq, Prod.mk.injEq] at h
          obtain ⟨h1, h2, h3⟩ := h
          subst h1
          subst h2
          subst h3
          have hnewk2 : ∀ k, (alookup cc k).isSome = true →
              (alookup cc0 k).isSome = true ∨ k ∈ addId visited m.id :=
            fun k hk => (hnewk k hk).imp id (addId_sub k)
          obtain ⟨g1, g2, g3, g4, g5, g6, g7⟩ :=
            attdGoCompl (attdAux modules fuel) ih m.importedIds
              (addId visited m.id) cc [] res0 ccg visg hext hnewk2 hgo
          refine ⟨?_, ?_, fun i hi => g3 i (addId_sub i hi), ?_, ?_,
            Or.inr (Or.inl (g3 m.id self_mem_addId))⟩
          · intro k v hkv
            rw [alookup_cons]
            by_cases hkm : k = m.id
            · exfalso
              rw [hkm] at hkv
              have := hext m.id v hkv
              rw [hlk] at this
              cases this
            · rw [if_neg (fun hbeq => hkm ((beq_iff_eq.mp hbeq).symm))]
              exact g1 k v hkv
          · intro k hk
            rw [alookup_cons] at hk
            by_cases hkm : (m.id == k) = true
            · have hkm2 : m.id = k := beq_iff_eq.mp hkm
              refine Or.inr ?_
              rw [← hkm2]
              exact g3 m.id self_mem_addId
            · rw [if_neg hkm] at hk
              exact g2 k hk
          · intro y hy
            rcases g4 y hy with h4 | h4
            · rcases mem_addId.mp h4 with h5 | h5
              · exact Or.inl h5
              · exact Or.inr (Or.inl h5)
            · exact Or.inr (Or.inr h4)
          · intro y hy hny z hz
            by_cases hym : y = m.id
            · subst hym
              obtain ⟨my, hmy, hzin, _⟩ := hz
              rw [hm] at hmy
              have hmy2 : m = my := Option.some.inj hmy
              rw [← hmy2] at hzin
              exact g7 z hzin
            · have hny2 : y ∉ addId visited m.id := by
                intro hmem
                rcases mem_addId.mp hmem with h5 | h5
                · exact hny h5
                · exact hym h5
              exact g5 y hy hny2 z hz

/-- Completeness of a top-level closure call on a fresh visited set, for
any collection (cycles included): if every entry of the starting cache is
complete modulo an excuse set `E`, then every id reachable from the
argument is in the computed set or excused — proved by walking each
reachability path through the edge-closure of the visited set. -/
theorem attdTopComplete {modules : List ModuleInfo} (cc0 : Cache)
    (E : String → Prop)
    (hcc0 : ∀ k v, alookup cc0 k = some v → ∀ x, ReachesId modules k x →
      x ∈ v ∨ E x) :
    ∀ (fuel : Nat) (m : ModuleInfo) (deps : List String) (cc2 : Cache)
      (vis2 : List String),
    findModule modules m.id = some m →
    attdAux modules fuel m [] cc0 = some (deps, cc2, vis2) →
    ∀ x, ReachesId modules m.id x → x ∈ deps ∨ E x := by
  intro fuel m deps cc2 vis2 hm h x hx
  obtain ⟨c1, c2, c3, c4, c5, c6⟩ :=
    attdAuxCompl fuel m [] cc0 deps cc2 vis2 (fun k v hv => hv)
      (fun k hk => Or.inl hk) hm h
  have LClose : ∀ x2 y, ReachesId modules y x2 → y ∈ vis2 →
      x2 ∈ deps ∨ E x2 := by
    intro x2 y hr
    have hr2 : Relation.TransGen (EdgeRel modules) y x2 := hr
    clear hr
    induction hr2 using Relation.TransGen.head_induction_on with
    | base hab =>
      intro hy
      obtain ⟨hz, _⟩ := c5 _ hy (List.not_mem_nil _) x2 hab
      exact Or.inl hz
    | ih hab hbc ihb =>
      intro hy
      obtain ⟨hz, hrest⟩ := c5 _ hy (List.not_mem_nil _) _ hab
      rcases hrest with hcv | ⟨v, hv0, hvsub⟩
      · exact ihb hcv
      · rcases hcc0 _ v hv0 x2 hbc with hxv | hxE
        · exact Or.inl (hvsub x2 hxv)
        · exact Or.inr hxE
  rcases c6 with ⟨v, hv0, hvsub⟩ | h6 | h6
  · rcases hcc0 m.id v hv0 x hx with hxv | hxE
    · exact Or.inl (hvsub x hxv)
    · exact Or.inr hxE
  · exact LClose x m.id hx h6
  · exact absurd h6 (List.not_mem_nil m.id)

/-- Exactness of the constructor's ignore expansion loop: starting from a
sound cache whose entries are complete modulo the accumulator, with the
accumulator closed under reachability, the loop returns exactly the
accumulator plus each remaining ignored id and its reachable set. -/
theorem expandGoComplete {modules : List ModuleInfo} :
    ∀ (igns acc : List String) (cc : Cache) (res : List String) (cc2 : Cache),
    CacheSound modules cc →
    (∀ k v, alookup cc k = some v → ∀ x, ReachesId modules k x →
      x ∈ v ∨ x ∈ acc) →
    (∀ a ∈ acc, ∀ x, ReachesId modules a x → x ∈ acc) →
    expandGo modules igns acc cc = some (res, cc2) →
    ∀ x, x ∈ res ↔ x ∈ acc ∨ ∃ i ∈ igns, x = i ∨ ReachesId modules i x := by
  intro igns
  induction igns with
  | nil =>
    intro acc cc res cc2 _ _ _ h
    unfold expandGo at h
    rw [Option.some.injEq, Prod.mk.injEq] at h
    obtain ⟨h1, h2⟩ := h
    subst h1
    subst h2
    intro x
    simp
  | cons i rest ih =>
    intro acc cc res cc2 hcs hL1 hL2 h
    unfold expandGo at h
    cases hfind : findModule modules i with
    | none => rw [hfind] at h; cases h
    | some mi =>
      rw [hfind] at h
      simp only at h
      cases hatd : allTransitiveDependencies modules mi cc with
      | none => rw [hatd] at h; cases h
      | some r =>
        obtain ⟨deps, ccm⟩ := r
        rw [hatd] at h
        simp only at h
        unfold allTransitiveDependencies at hatd
        cases haux : attdAux modules (attdFuel modules) mi [] cc with
        | none => rw [haux] at hatd; cases hatd
        | some r2 =>
          obtain ⟨deps2, cc3, vis3⟩ := r2
          rw [haux] at hatd
          simp only [Option.map_some'] at hatd
          rw [Option.some.injEq, Prod.mk.injEq] at hatd
          obtain ⟨h1, h2⟩ := hatd
          subst h1
          subst h2
          have hmi : findModule modules mi.id = some mi := findModule_self hfind
          have hiid : mi.id = i := (findModule_eq_some hfind).2
          have hsnd := attdAuxSound (attdFuel modules) mi [] cc hcs hmi haux
          have hcmp := attdTopComplete cc (fun x2 => x2 ∈ acc) hL1
            (attdFuel modules) mi deps2 cc3 vis3 hmi haux
          obtain ⟨c1, c2, c3, c4, c5, c6⟩ :=
            attdAuxCompl (attdFuel modules) mi [] cc deps2 cc3 vis3
              (fun k v hv => hv) (fun k hk => Or.inl hk) hmi haux
          rw [hiid] at hsnd hcmp c4
          have hmem2 : ∀ w, w ∈ deps2.foldl addId (addId acc i) ↔
              (w ∈ acc ∨ w = i ∨ w ∈ deps2) := by
            intro w
            rw [mem_foldl_addId, mem_addId]
            constructor
            · rintro ((hw | hw) | hw)
              · exact Or.inl hw
              · exact Or.inr (Or.inl hw)
              · exact Or.inr (Or.inr hw)
            · rintro (hw | hw | hw)
              · exact Or.inl (Or.inl hw)
              · exact Or.inl (Or.inr hw)
              · exact Or.inr hw
          have hL2' : ∀ a ∈ deps2.foldl addId (addId acc i), ∀ x,
              ReachesId modules a x →
              x ∈ deps2.foldl addId (addId acc i) := by
            intro a ha x hx
            rcases (hmem2 a).mp ha with ha2 | ha2 | ha2
            · exact (hmem2 x).mpr (Or.inl (hL2 a ha2 x hx))
            · subst ha2
              rcases hcmp x hx with h3 | h3
              · exact (hmem2 x).mpr (Or.inr (Or.inr h3))
              · exact (hmem2 x).mpr (Or.inl h3)
            · have hia : ReachesId modules i a := hsnd.1 a ha2
              have hix : ReachesId modules i x := Relation.TransGen.trans hia hx
              rcases hcmp x hix with h3 | h3
              · exact (hmem2 x).mpr (Or.inr (Or.inr h3))
              · exact (hmem2 x).mpr (Or.inl h3)
          have hL1' : ∀ k v, alookup cc3 k = some v → ∀ x,
              ReachesId modules k x → x ∈ v ∨
              x ∈ deps2.foldl addId (addId acc i) := by
            intro k v hkv x hx
            cases hk0 : alookup cc k with
            | some v0 =>
              have hsame := c1 k v0 hk0
              rw [hkv] at hsame
              have hvv : v = v0 := Option.some.inj hsame
              subst hvv
              rcases hL1 k v hk0 x hx with h3 | h3
              · exact Or.inl h3
              · exact Or.inr ((hmem2 x).mpr (Or.inl h3))
            | none =>
              refine Or.inr ?_
              rcases c2 k (by rw [hkv]; rfl) with hsome | hkvis
              · rw [hk0] at hsome
                simp at hsome
              · rcases c4 k hkvis with h4 | h4 | h4
                · exact absurd h4 (List.not_mem_nil k)
                · subst h4
                  rcases hcmp x hx with h3 | h3
                  · exact (hmem2 x).mpr (Or.inr (Or.inr h3))
                  · exact (hmem2 x).mpr (Or.inl h3)
                · have hik : ReachesId modules i k := hsnd.1 k h4
                  have hix := Relation.TransGen.trans hik hx
                  rcases hcmp x hix with h3 | h3
                  · exact (hmem2 x).mpr (Or.inr (Or.inr h3))
                  · exact (hmem2 x).mpr (Or.inl h3)
          have hchar := ih (deps2.foldl addId (addId acc i)) cc3 res cc2
            hsnd.2 hL1' hL2' h
          intro x
          rw [hchar x]
          constructor
          · rintro (hx | ⟨i2, hi2, hx⟩)
            · rcases (hmem2 x).mp hx with h3 | h3 | h3
              · exact Or.inl h3
              · exact Or.inr ⟨i, List.mem_cons_self _ _, Or.inl h3⟩
              · exact Or.inr ⟨i, List.mem_cons_self _ _,
                  Or.inr (hsnd.1 x h3)⟩
            · exact Or.inr ⟨i2, List.mem_cons_of_mem _ hi2, hx⟩
          · rintro (hx | ⟨i2, hi2, hx⟩)
            · exact Or.inl ((hmem2 x).mpr (Or.inl hx))
            · rcases List.mem_cons.mp hi2 with heq | hi3
              · rcases hx with hx1 | hx2
                · exact Or.inl ((hmem2 x).mpr
                    (Or.inr (Or.inl (hx1.trans heq))))
                · have hx3 : ReachesId modules i x := heq ▸ hx2
                  rcases hcmp x hx3 with h3 | h3
                  · exact Or.inl ((hmem2 x).mpr (Or.inr (Or.inr h3)))
                  · exact Or.inl ((hmem2 x).mpr (Or.inl h3))
              · exact Or.inr ⟨i2, hi3, hx⟩

/-- C3, amended: on a cold global closure cache the claimed equality holds
for every record collection — cyclic graphs included: whenever the
constructor's expansion succeeds, the expanded ignore set holds exactly the
supplied ids together with every id statically reachable from one of them.
With a warm global cache left by earlier queries the expansion can miss
reachable ids (see the counterexample). -/
theorem C3_ignore_expansion_exact (modules : List ModuleInfo)
    (igns : List String) (res : List String) (cc2 : Cache)
    (hexp : expandIgnored modules igns [] = some (res, cc2)) :
    ∀ x, x ∈ res ↔ ∃ i ∈ igns, x = i ∨ ReachesId modules i x := by
  have hchar := expandGoComplete igns [] [] res cc2
    (fun k v hkv => by simp [alookup] at hkv)
    (fun k v hkv => by simp [alookup] at hkv)
    (fun a ha => absurd ha (List.not_mem_nil a))
    hexp
  intro x
  rw [hchar x]
  simp

/-- Witness for C3 on the cyclic graph `A → B → {A, D}` with ignore set
`{A}` and a cold cache: the expansion returns exactly `["A", "B", "D"]`,
and membership of `D` follows from the path `A → B → D` — exactness on a
cycle, in contrast to the warm-cache counterexample on the same graph. -/
theorem C3_witness : "D" ∈ ["A", "B", "D"] ∧ ReachesId gCyc "A" "D" := by
  have h := C3_ignore_expansion_exact gCyc ["A"] ["A", "B", "D"]
    [("A", ["B", "A", "D"]), ("B", ["A", "D"]), ("D", [])] (by decide)
  have h1 : EdgeRel gCyc "A" "B" :=
    ⟨cycA, by decide, by decide, cycB, by decide⟩
  have h2 : EdgeRel gCyc "B" "D" :=
    ⟨cycB, by decide, by decide, cycD, by decide⟩
  have hr : ReachesId gCyc "A" "D" :=
    Relation.TransGen.head h1 (Relation.TransGen.single h2)
  exact ⟨(h "D").mpr ⟨"A", List.mem_cons_self _ _, Or.inr hr⟩, hr⟩

end BS
